import Mathlib

/-!
A verification development for the `feature` CLI (crates `src/cmd/mod.rs` and
`src/cmd/lint.rs`): a shallow embedding of the metadata snapshot, the dependency
resolver, the Never-Implies feature-implication graph builder, the Never-Enables
check and the Propagate-Feature check, together with theorems about them.

Modelling conventions:
* `cargo_metadata` snapshot types (`Package`, `Dependency`, `Resolve`, `Node`,
  `NodeDep`, `PackageId`) are embedded as plain structures over `String`.
  Only the fields that the linted code reads are carried.
* `BTreeMap`/`BTreeSet` values are embedded as association lists / lists kept in
  sorted order via sorted insertion (`insertSet`, and `insertMap` which updates
  the first matching key in place).
* Filesystem paths are embedded as lists of path components, taken to be already
  canonical (OS-level `canonicalize` is I/O and outside the snapshot);
  `Path::starts_with` becomes `List.isPrefixOf` on components.
* Panics (`unwrap`/`expect`/`assert!`/`panic!`) are embedded as explicit error
  values; printing is embedded as an accumulated list of output lines, and the
  process exit status is explicit.
-/

/-- A declared dependency of a package (`cargo_metadata::Dependency`); carries the
fields the linter reads: declared `name`, optional `rename`,
`uses_default_features` and the features requested in the declaration itself. -/
structure Dependency where
  name : String
  rename : Option String
  uses_default_features : Bool
  features : List String
  deriving DecidableEq

/-- A package of the snapshot (`cargo_metadata::Package`). `features` is the
`[features]` table: feature name to ordered implication list. -/
structure Package where
  id : String
  name : String
  version : String
  source : Option String
  manifest_path : List String
  dependencies : List Dependency
  features : List (String × List String)
  deriving DecidableEq

/-- One resolved edge of the resolve graph (`cargo_metadata::NodeDep`): the
normalized name the dependency is used under, and the id of the package it
points to. -/
structure NodeDep where
  name : String
  pkg : String
  deriving DecidableEq

/-- One node of the resolve graph (`cargo_metadata::Node`). -/
structure ResolveNode where
  id : String
  deps : List NodeDep
  deriving DecidableEq

/-- The optional fully resolved dependency graph (`cargo_metadata::Resolve`). -/
structure ResolveGraph where
  nodes : List ResolveNode
  deriving DecidableEq

/-- The metadata snapshot (`cargo_metadata::Metadata`): all packages, the ids of
the workspace members, and the optional resolve graph. -/
structure Metadata where
  packages : List Package
  workspace_members : List String
  resolve : Option ResolveGraph
  deriving DecidableEq

/-- `meta.workspace_packages()`: the packages whose id is a workspace member. -/
def workspace_packages (meta : Metadata) : List Package :=
  meta.packages.filter (fun p => meta.workspace_members.contains p.id)

/-- `dep.name.replace('-', "_")`, written over the character list so that it
reduces inside the kernel. -/
def replaceDash (s : String) : String :=
  ⟨s.data.map (fun c => if c = '-' then '_' else c)⟩

/-- `resolve_dep_from_workspace` (src/cmd/mod.rs:98-105): scan the workspace
members for the first one whose declared name equals the dependency's name and
return the package of the snapshot carrying that member's id. -/
def resolve_dep_from_workspace (dep : Dependency) (meta : Metadata) : Option Package :=
  match (workspace_packages meta).find? (fun work => work.name == dep.name) with
  | some work => meta.packages.find? (fun pkg => pkg.id == work.id)
  | none => none

/-- `resolve_dep_from_graph` (src/cmd/mod.rs:111-122): fold dashes of the
dependency's declared name to underscores, look up the resolving package's node,
find the resolved edge with that name and return the package it points to. -/
def resolve_dep_from_graph (pkg : Package) (dep : Dependency) (meta : Metadata)
    (resolve : ResolveGraph) : Option Package :=
  let dep_name := replaceDash dep.name
  match resolve.nodes.find? (fun node => node.id == pkg.id) with
  | none => none
  | some resolved_pkg =>
    match resolved_pkg.deps.find? (fun node => node.name == dep_name) with
    | none => none
    | some resolved_dep_id => meta.packages.find? (fun p => p.id == resolved_dep_id.pkg)

/-- `resolve_dep` (src/cmd/mod.rs:88-93): resolve through the resolve graph when
the snapshot has one, otherwise among workspace members. -/
def resolve_dep (pkg : Package) (dep : Dependency) (meta : Metadata) : Option Package :=
  match meta.resolve with
  | some resolve => resolve_dep_from_graph pkg dep meta resolve
  | none => resolve_dep_from_workspace dep meta

/-- Modelled from the spec: §4.1's description of graph-based resolution, which
matches against the dependency spec's *effective* name — "the rename when a
rename is present, otherwise the declared name". This definition follows the
spec's words and exists only to be compared with `resolve_dep_from_graph` as
implemented. -/
def resolve_dep_from_graph_effective (pkg : Package) (dep : Dependency) (meta : Metadata)
    (resolve : ResolveGraph) : Option Package :=
  let dep_name := replaceDash (dep.rename.getD dep.name)
  match resolve.nodes.find? (fun node => node.id == pkg.id) with
  | none => none
  | some resolved_pkg =>
    match resolved_pkg.deps.find? (fun node => node.name == dep_name) with
    | none => none
    | some resolved_dep_id => meta.packages.find? (fun p => p.id == resolved_dep_id.pkg)

/-! ### Concrete snapshots used as witnesses and counterexamples -/

/-- A dependency on `foo-bar` renamed to `baz`. -/
def depFooBar : Dependency :=
  { name := "foo-bar", rename := some "baz", uses_default_features := true, features := [] }

/-- The package declaring `depFooBar`. -/
def pkgP5 : Package :=
  { id := "idp", name := "p", version := "1.0.0", source := none,
    manifest_path := ["ws", "p", "Cargo.toml"], dependencies := [depFooBar], features := [] }

/-- The package named `foo-bar`. -/
def pkgFoo : Package :=
  { id := "idfoo", name := "foo-bar", version := "1.0.0", source := none,
    manifest_path := ["ws", "foo", "Cargo.toml"], dependencies := [], features := [] }

/-- The package named `baz` (the rename target of `depFooBar`). -/
def pkgBaz : Package :=
  { id := "idbaz", name := "baz", version := "1.0.0", source := none,
    manifest_path := ["ws", "baz", "Cargo.toml"], dependencies := [], features := [] }

/-- A resolve graph whose node for `pkgP5` carries edges for both the declared
name (normalized) and the rename. -/
def graph5 : ResolveGraph :=
  { nodes := [ { id := "idp",
                 deps := [ { name := "foo_bar", pkg := "idfoo" },
                           { name := "baz", pkg := "idbaz" } ] } ] }

/-- Snapshot for exercising graph-based resolution of a renamed dependency. -/
def meta5 : Metadata :=
  { packages := [pkgP5, pkgFoo, pkgBaz], workspace_members := ["idp"], resolve := some graph5 }

/-- A dependency on `b` by plain name. -/
def depB : Dependency :=
  { name := "b", rename := none, uses_default_features := true, features := [] }

/-- Workspace member `b`. -/
def pkgB : Package :=
  { id := "ib", name := "b", version := "1.0.0", source := none,
    manifest_path := ["ws", "b", "Cargo.toml"], dependencies := [], features := [] }

/-- Workspace member `a`, depending on `b`. -/
def pkgA : Package :=
  { id := "ia", name := "a", version := "1.0.0", source := none,
    manifest_path := ["ws", "a", "Cargo.toml"], dependencies := [depB], features := [] }

/-- A resolve-graph-free workspace snapshot with members `a` and `b`. -/
def metaAB : Metadata :=
  { packages := [pkgA, pkgB], workspace_members := ["ia", "ib"], resolve := none }

/-! ### String helpers

`String.contains`, `split` and `replace` of the Rust code are embedded over the
character list so that they reduce inside the kernel. All patterns used by the
code are single characters or single-character replacements. -/

/-- `str::contains` with a single-character pattern. -/
def strContains (s : String) (c : Char) : Bool :=
  s.data.contains c

/-- `str::split` with a single-character pattern: auxiliary accumulator form. -/
def splitCharAux (c : Char) : List Char → List Char → List String
  | [], acc => [⟨acc.reverse⟩]
  | x :: xs, acc =>
    if x = c then ⟨acc.reverse⟩ :: splitCharAux c xs []
    else splitCharAux c xs (x :: acc)

/-- `str::split` with a single-character pattern (keeps empty segments, like Rust). -/
def splitChar (c : Char) (s : String) : List String :=
  splitCharAux c s.data []

/-- `str::replace("?", "")`: drop every question mark. -/
def removeQm (s : String) : String :=
  ⟨s.data.filter (fun c => c ≠ '?')⟩

/-! ### The implication graph and its builder (Never-Implies) -/

/-- `CrateAndFeature` (lint.rs:128): a vertex of the implication graph; the
first component is a package id for snapshot packages and a bare declared name
for unresolved placeholder targets. -/
structure CrateAndFeature where
  id : String
  feature : String
  deriving DecidableEq

/-- Modelled from the spec: the Graph Engine of §4.3 (`Dag` in `src/dag.rs`,
which is not among the sources). Edges are kept in insertion order. -/
structure Dag where
  edges : List (CrateAndFeature × CrateAndFeature)
  deriving DecidableEq

/-- Modelled from the spec: `add_edge` records the edge, deduplicated (§3, §4.3:
idempotent insertion). -/
def Dag.add_edge (d : Dag) (a b : CrateAndFeature) : Dag :=
  if (a, b) ∈ d.edges then d else ⟨d.edges ++ [(a, b)]⟩

/-- Modelled from the spec: `lhs_nodes` — every vertex with at least one
outgoing edge, in insertion order (§4.3). -/
def Dag.lhs_nodes (d : Dag) : List CrateAndFeature :=
  (d.edges.map Prod.fst).eraseDups

/-- Successors of a vertex, in edge-insertion order. -/
def Dag.adj (d : Dag) (v : CrateAndFeature) : List CrateAndFeature :=
  (d.edges.filter (fun e => e.1 == v)).map Prod.snd

/-- Modelled from the spec: the breadth-first worklist of §4.3. Paths are kept
reversed (head is the newest vertex); vertices are marked visited when enqueued;
`fuel` bounds the number of dequeues, and since every vertex is enqueued at most
once, `2 * |edges| + 2` dequeues suffice for the initial call. -/
def Dag.bfs (d : Dag) (pred : CrateAndFeature → Bool) :
    Nat → List (List CrateAndFeature) → List CrateAndFeature → Option (List CrateAndFeature)
  | 0, _, _ => none
  | _ + 1, [], _ => none
  | fuel + 1, path :: queue, visited =>
    match path with
    | [] => d.bfs pred fuel queue visited
    | v :: _ =>
      if pred v then some path.reverse
      else
        let nexts := (d.adj v).filter (fun u => !visited.contains u)
        d.bfs pred fuel (queue ++ nexts.map (fun u => u :: path)) (visited ++ nexts)

/-- Modelled from the spec: `reachable_predicate(start, pred)` (§4.3) — the
breadth-first search from `start`, returning the discovered path (as the vertex
sequence from `start` to the first vertex satisfying `pred`) or `none`. -/
def Dag.reachable_predicate (d : Dag) (start : CrateAndFeature)
    (pred : CrateAndFeature → Bool) : Option (List CrateAndFeature) :=
  d.bfs pred (2 * d.edges.length + 2) [[start]] [start]

/-- The panics `NeverImpliesCmd::run` can hit while building the graph
(lint.rs:147-253): the `unwrap` on a `dep:NAME` entry naming no declared
dependency (line 175), the `expect` on a `NAME/FEATURE` entry naming no declared
dependency (line 207), and the `assert!` on a bare token that is not a known
own-feature (line 237). -/
inductive BuildErr where
  | unresolvedColon (pkgId depName : String)
  | unresolvedSlash (pkgId depName : String)
  | bareUnknown (pkgId token : String)
  deriving DecidableEq

/-- lint.rs:148-161 — the edges contributed by one declared dependency: the
default-features edge and one edge per feature requested in the declaration
itself, each keyed by the dependency's *declared* name. -/
def addDepEdge (pkgId : String) (dag : Dag) (dep : Dependency) : Dag :=
  dep.features.foldl (fun g f => g.add_edge ⟨pkgId, "default"⟩ ⟨dep.name, f⟩)
    (if dep.uses_default_features then
      dag.add_edge ⟨pkgId, "default"⟩ ⟨dep.name, "default"⟩ else dag)

/-- lint.rs:147-161 — the declared-dependency edges of one package. -/
def addDepEdges (pkg : Package) (dag : Dag) : Dag :=
  pkg.dependencies.foldl (addDepEdge pkg.id) dag

/-- lint.rs:177-185 and 213-221 — the target vertex key: the resolved package's
id when `resolve_dep` succeeds, the declared name otherwise (dead-end
placeholder). -/
def depIdOf (pkg : Package) (d : Dependency) (meta : Metadata) : String :=
  match resolve_dep pkg d meta with
  | none => d.name
  | some rp => rp.id

/-- lint.rs:163-251 — one implication-spec string of `pkg`'s feature `feature`:
`dep:NAME` entries and `NAME/FEATURE` entries look up the declared dependency by
rename-or-name and key the target by `depIdOf`; a bare token must be a known
own-feature. -/
def processImplication (meta : Metadata) (pkg : Package) (feature : String) (dag : Dag)
    (dep : String) : Except BuildErr Dag :=
  if strContains dep ':' then
    match pkg.dependencies.find?
        (fun d => d.rename.getD d.name == (splitChar ':' dep).getD 1 "") with
    | none => .error (.unresolvedColon pkg.id ((splitChar ':' dep).getD 1 ""))
    | some d => .ok (dag.add_edge ⟨pkg.id, feature⟩ ⟨depIdOf pkg d meta, "default"⟩)
  else if strContains dep '/' then
    match pkg.dependencies.find?
        (fun d => d.rename.getD d.name == removeQm ((splitChar '/' dep).getD 0 "")) with
    | none => .error (.unresolvedSlash pkg.id (removeQm ((splitChar '/' dep).getD 0 "")))
    | some d =>
      .ok (dag.add_edge ⟨pkg.id, feature⟩ ⟨depIdOf pkg d meta, (splitChar '/' dep).getD 1 ""⟩)
  else
    if pkg.features.any (fun kv => kv.1 == dep) then
      .ok (dag.add_edge ⟨pkg.id, feature⟩ ⟨pkg.id, dep⟩)
    else
      .error (.bareUnknown pkg.id dep)

/-- lint.rs:164-251 — all implication specs of one feature, in order. -/
def processImplications (meta : Metadata) (pkg : Package) (feature : String) :
    Dag → List String → Except BuildErr Dag
  | dag, [] => .ok dag
  | dag, dep :: deps =>
    match processImplication meta pkg feature dag dep with
    | .error e => .error e
    | .ok dag1 => processImplications meta pkg feature dag1 deps

/-- lint.rs:163-252 — the `[features]` table of one package, in order. -/
def processFeatures (meta : Metadata) (pkg : Package) :
    Dag → List (String × List String) → Except BuildErr Dag
  | dag, [] => .ok dag
  | dag, (feature, deps) :: rest =>
    match processImplications meta pkg feature dag deps with
    | .error e => .error e
    | .ok dag1 => processFeatures meta pkg dag1 rest

/-- lint.rs:147-253 — the package loop of the graph build. -/
def buildDagGo (meta : Metadata) : Dag → List Package → Except BuildErr Dag
  | dag, [] => .ok dag
  | dag, pkg :: pkgs =>
    match processFeatures meta pkg (addDepEdges pkg dag) pkg.features with
    | .error e => .error e
    | .ok dag1 => buildDagGo meta dag1 pkgs

/-- The full Never-Implies graph construction (lint.rs:145-253). -/
def buildDag (meta : Metadata) : Except BuildErr Dag :=
  buildDagGo meta ⟨[]⟩ meta.packages

/-- One implication-spec string is either a `dep:`/`/`-form entry or a known
own-feature of its package (the condition the bare-token `assert!` enforces). -/
def bareOkStr (pkg : Package) (dep : String) : Bool :=
  strContains dep ':' || strContains dep '/' || pkg.features.any (fun kv => kv.1 == dep)

/-- All implication specs of a package pass the bare-token check. -/
def bareOkPkg (pkg : Package) : Bool :=
  pkg.features.all (fun fd => fd.2.all (fun dep => bareOkStr pkg dep))

/-- Every bare token of the snapshot names a known own-feature. -/
def allBareKnown (meta : Metadata) : Bool :=
  meta.packages.all bareOkPkg

/-- Whether a build result is specifically the bare-token integrity failure. -/
def isBareUnknownErr : Except BuildErr Dag → Bool
  | .error (.bareUnknown _ _) => true
  | _ => false

/-- The edge list of a successful build (empty on build failure); used to state
concrete evaluations of the builder. -/
def dagEdgesOf (meta : Metadata) : List (CrateAndFeature × CrateAndFeature) :=
  match buildDag meta with
  | .ok d => d.edges
  | .error _ => []

/-- A package whose feature `std` lists the bare token `nope`, which is not a
feature of the package: the bare-token integrity check must reject it. -/
def pkgBadBare : Package :=
  { id := "ibad", name := "bad", version := "1.0.0", source := none,
    manifest_path := ["ws", "bad", "Cargo.toml"], dependencies := [],
    features := [("std", ["nope"])] }

/-- Snapshot whose only package has an unknown bare-token implication. -/
def metaBadBare : Metadata :=
  { packages := [pkgBadBare], workspace_members := ["ibad"], resolve := none }

/-! ### The Never-Implies scan and rendering -/

/-- Arguments of `NeverImpliesCmd` (lint.rs:55-83), sans the workspace-location
arguments (metadata loading is outside the snapshot). -/
structure NIArgs where
  precondition : String
  stays_disabled : String
  show_source : Bool
  show_version : Bool
  path_delimiter : String
  deriving DecidableEq

/-- The run-time panics of the lint commands, surfaced as explicit values: a
crate id the id-lookup closures cannot find (lint.rs:266, 330-335, 368-373), a
graph-build abort, `PropagateFeatureCmd`'s abort on an empty package filter
(lint.rs:365), and its `unwrap` of an absent fixer (lint.rs:494). -/
inductive Panic where
  | unknownCrate (id : String)
  | build (e : BuildErr)
  | noPackagesFound
  | fixerMissing
  deriving DecidableEq

/-- `str::replace` with a two-character pattern `a b` and a one-character
replacement `c`: scan left to right without overlap. -/
def replacePair (a b c : Char) : List Char → List Char
  | x :: y :: rest =>
    if x = a ∧ y = b then c :: replacePair a b c rest
    else x :: replacePair a b c (y :: rest)
  | l => l

/-- lint.rs:269 — `path_delimiter.replace("\\n", "\n").replace("\\t", "\t")`. -/
def unescapeDelimiter (s : String) : String :=
  ⟨replacePair '\\' 't' '\t' (replacePair '\\' 'n' '\n' s.data)⟩

/-- lint.rs:255-260 — scan the given `lhs_nodes()` suffix in order for the
first vertex carrying the precondition feature from which a vertex carrying the
`stays_disabled` feature is reachable. -/
def findViolationGo (dag : Dag) (pre dis : String) :
    List CrateAndFeature → Option (CrateAndFeature × List CrateAndFeature)
  | [] => none
  | v :: rest =>
    if v.feature == pre then
      match dag.reachable_predicate v (fun u => u.feature == dis) with
      | some path => some (v, path)
      | none => findViolationGo dag pre dis rest
    else findViolationGo dag pre dis rest

/-- The scan of lint.rs:255-260 over the whole of `lhs_nodes()`. -/
def findViolation (dag : Dag) (pre dis : String) :
    Option (CrateAndFeature × List CrateAndFeature) :=
  findViolationGo dag pre dis dag.lhs_nodes

/-- The test `findViolationGo` effectively applies to each `lhs_nodes()` entry:
precondition feature and a reachable `stays_disabled` vertex. -/
def offendingVertex (dag : Dag) (pre dis : String) (v : CrateAndFeature) : Bool :=
  v.feature == pre && (dag.reachable_predicate v (fun u => u.feature == dis)).isSome

/-- The scan result after a successful build (`none` when the build fails);
states concrete evaluations of the scan. -/
def findViolationOf (meta : Metadata) (pre dis : String) :
    Option (CrateAndFeature × List CrateAndFeature) :=
  match buildDag meta with
  | .ok dag => findViolation dag pre dis
  | .error _ => none

/-- lint.rs:263-288 — render one path vertex: look the crate up by id (the
lookup panics on an unknown id, lint.rs:266) and produce `name/feature` with
the optional version and source annotations. -/
def renderSeg (args : NIArgs) (pkgs : List Package) (cf : CrateAndFeature) :
    Except Panic String :=
  match pkgs.find? (fun pkg => pkg.id == cf.id) with
  | none => .error (.unknownCrate cf.id)
  | some krate =>
    .ok (krate.name ++ "/" ++ cf.feature ++
      (if args.show_version then " v" ++ krate.version else "") ++
      (if args.show_source then
        match krate.source with
        | some src => " (" ++ src ++ ")"
        | none => ""
      else ""))

/-- lint.rs:273-288 — render every path vertex in order, stopping at the first
unknown id. -/
def renderSegs (args : NIArgs) (pkgs : List Package) :
    List CrateAndFeature → Except Panic (List String)
  | [] => .ok []
  | cf :: rest =>
    match renderSeg args pkgs cf with
    | .error p => .error p
    | .ok s =>
      match renderSegs args pkgs rest with
      | .error p => .error p
      | .ok ss => .ok (s :: ss)

/-- lint.rs:289-290 — the violation report printed before `exit(1)`. -/
def violationLine (args : NIArgs) (segs : List String) : String :=
  "Feature '" ++ args.precondition ++ "' implies '" ++ args.stays_disabled ++
    "' via path:\n  " ++ String.intercalate (unescapeDelimiter args.path_delimiter) segs

/-- `NeverImpliesCmd::run` (lint.rs:137-295) on an already-loaded snapshot:
build the graph, scan `lhs_nodes()` for the first violating precondition
vertex, and either finish with no output and exit status 0, or print the single
path and exit with status 1; graph-build aborts and unknown-id lookups during
rendering surface as panics. -/
def neverImpliesRun (args : NIArgs) (meta : Metadata) : Except Panic (List String × Nat) :=
  match buildDag meta with
  | .error e => .error (.build e)
  | .ok dag =>
    match findViolation dag args.precondition args.stays_disabled with
    | none => .ok ([], 0)
    | some (_, path) =>
      match renderSegs args meta.packages path with
      | .error p => .error p
      | .ok segs => .ok ([violationLine args segs], 1)

/-- A dependency on `b`, default features off, requesting feature `std`. -/
def dep3 : Dependency :=
  { name := "b", rename := none, uses_default_features := false, features := ["std"] }

/-- A package whose only dependency `b` is not itself part of the snapshot, so
the edge for the requested feature `std` targets a placeholder vertex. -/
def pkg3 : Package :=
  { id := "ida", name := "a", version := "1.0.0", source := none,
    manifest_path := ["ws", "a", "Cargo.toml"], dependencies := [dep3], features := [] }

/-- Snapshot whose violation path ends at an unresolved placeholder vertex. -/
def meta3 : Metadata :=
  { packages := [pkg3], workspace_members := ["ida"], resolve := none }

/-- Never-Implies arguments `--precondition default --stays-disabled std`. -/
def args3 : NIArgs :=
  { precondition := "default", stays_disabled := "std",
    show_source := false, show_version := false, path_delimiter := " -> " }

/-- A dependency on workspace member `y`. -/
def depY : Dependency :=
  { name := "y", rename := none, uses_default_features := false, features := [] }

/-- Member `x`: its feature `rb` forwards `rt` to the dependency `y`. -/
def pkgX : Package :=
  { id := "ix", name := "x", version := "1.0.0", source := none,
    manifest_path := ["ws", "x", "Cargo.toml"], dependencies := [depY],
    features := [("rb", ["y/rt"])] }

/-- Member `y`: its feature `rt` enables its own feature `std`. -/
def pkgY : Package :=
  { id := "iy", name := "y", version := "1.0.0", source := none,
    manifest_path := ["ws", "y", "Cargo.toml"], dependencies := [],
    features := [("rt", ["std"]), ("std", [])] }

/-- Snapshot with the transitive chain `x/rb → y/rt → y/std`. -/
def metaXY : Metadata :=
  { packages := [pkgX, pkgY], workspace_members := ["ix", "iy"], resolve := none }

/-- The graph the builder produces for `metaXY`. -/
def dagXY : Dag :=
  ⟨[(⟨"ix", "rb"⟩, ⟨"iy", "rt"⟩), (⟨"iy", "rt"⟩, ⟨"iy", "std"⟩)]⟩

/-- Never-Implies arguments `--precondition rb --stays-disabled std`. -/
def argsC : NIArgs :=
  { precondition := "rb", stays_disabled := "std",
    show_source := false, show_version := false, path_delimiter := " -> " }

/-! ### Ordered sets and maps

`BTreeSet<String>` is embedded as a sorted duplicate-free list and
`BTreeMap<String, BTreeSet<String>>` as an association list whose insertion
updates the first matching key in place; iteration in `BTreeMap` key order is
recovered by `sortedKeys`. -/

/-- Lexicographic string comparison over code points, written to reduce inside
the kernel (`Ord`'s byte order and code-point order agree on the ASCII ids and
names handled here; the order only fixes `BTreeSet`/`BTreeMap` iteration). -/
def strLtChars : List Char → List Char → Bool
  | [], [] => false
  | [], _ :: _ => true
  | _ :: _, [] => false
  | x :: xs, y :: ys =>
    if x.toNat < y.toNat then true
    else if y.toNat < x.toNat then false
    else strLtChars xs ys

/-- Lexicographic string comparison, `Ord::cmp == Less`. -/
def strLt (a b : String) : Bool :=
  strLtChars a.data b.data

/-- `BTreeSet::insert`: ordered, duplicate-free insertion. -/
def insertSet (x : String) : List String → List String
  | [] => [x]
  | y :: ys =>
    if x = y then y :: ys
    else if strLt x y then x :: y :: ys
    else y :: insertSet x ys

/-- `map.entry(k).or_default().insert(v)`: update the first entry with key `k`,
or append a fresh singleton entry. -/
def insertMap (k v : String) : List (String × List String) → List (String × List String)
  | [] => [(k, [v])]
  | (a, s) :: rest =>
    if k = a then (a, insertSet v s) :: rest
    else (a, s) :: insertMap k v rest

/-- `BTreeMap::get` (first-match association lookup). -/
def lookupList (m : List (String × List String)) (k : String) : Option (List String) :=
  match m.find? (fun kv => kv.1 == k) with
  | some kv => some kv.2
  | none => none

/-- The keys of an embedded map, in sorted order (`BTreeMap` iteration order). -/
def sortedKeys (m : List (String × List String)) : List String :=
  m.foldl (fun acc kv => insertSet kv.1 acc) []

/-- `v` is recorded under key `k`. -/
def MapMem (m : List (String × List String)) (k v : String) : Prop :=
  ∃ s, lookupList m k = some s ∧ v ∈ s

/-- `id` is the id of some package of the snapshot. -/
def IsPkgId (meta : Metadata) (id : String) : Prop :=
  ∃ pkg ∈ meta.packages, pkg.id = id

/-- Every key and every recorded value of the map is a package id of the
snapshot (the invariant that keeps the report-printing id lookups total). -/
def GoodMap (meta : Metadata) (m : List (String × List String)) : Prop :=
  ∀ kv ∈ m, IsPkgId meta kv.1 ∧ ∀ v ∈ kv.2, IsPkgId meta v

/-! ### Never-Enables -/

/-- Arguments of `NeverEnablesCmd` (lint.rs:36-52). -/
structure NEArgs where
  precondition : String
  stays_disabled : String
  deriving DecidableEq

/-- lint.rs:330-335 and 368-373 — find a package by id; the closure panics on an
unknown id. -/
def lookupPkg (pkgs : List Package) (id : String) : Except Panic Package :=
  match pkgs.find? (fun pkg => pkg.id == id) with
  | some pkg => .ok pkg
  | none => .error (.unknownCrate id)

/-- lint.rs:319-327 — one dependency's contribution to the offender map: when
the dependency resolves and the precondition's implication list contains
`"<resolved name>/<stays_disabled>"`, record the resolved id under the package. -/
def neDepStep (args : NEArgs) (meta : Metadata) (pkg : Package) (enabled : List String)
    (m : List (String × List String)) (dep : Dependency) : List (String × List String) :=
  match resolve_dep pkg dep meta with
  | none => m
  | some d =>
    if enabled.contains (d.name ++ "/" ++ args.stays_disabled) then insertMap pkg.id d.id m
    else m

/-- lint.rs:310-328 — one package's contribution to the offender map: skip
packages not declaring the precondition; record a self-entry when the list
contains the bare `stays_disabled` token; then scan the dependencies. -/
def neOffendersPkg (args : NEArgs) (meta : Metadata)
    (m : List (String × List String)) (pkg : Package) : List (String × List String) :=
  match lookupList pkg.features args.precondition with
  | none => m
  | some enabled =>
    pkg.dependencies.foldl (neDepStep args meta pkg enabled)
      (if enabled.contains args.stays_disabled then insertMap pkg.id pkg.id m else m)

/-- lint.rs:308-328 — the full offender map of a Never-Enables run. -/
def neOffenders (args : NEArgs) (meta : Metadata) : List (String × List String) :=
  meta.packages.foldl (neOffendersPkg args meta) []

/-- lint.rs:344-346 — the per-dependency report lines of one offender entry. -/
def neDepLines (pkgs : List Package) : List String → Except Panic (List String)
  | [] => .ok []
  | d :: ds =>
    match lookupPkg pkgs d with
    | .error p => .error p
    | .ok krate =>
      match neDepLines pkgs ds with
      | .error p => .error p
      | .ok ls => .ok (("      " ++ krate.name) :: ls)

/-- lint.rs:337-347 — print each offender, in `BTreeMap` key order, together
with the dependencies through which the forbidden activation occurs. -/
def nePrint (args : NEArgs) (pkgs : List Package) (m : List (String × List String)) :
    List String → Except Panic (List String)
  | [] => .ok []
  | id :: ids =>
    match lookupPkg pkgs id with
    | .error p => .error p
    | .ok krate =>
      match neDepLines pkgs ((lookupList m id).getD []) with
      | .error p => .error p
      | .ok depLines =>
        match nePrint args pkgs m ids with
        | .error p => .error p
        | .ok rest =>
          .ok (("crate \"" ++ krate.name ++ "\"\n  feature \"" ++
              args.precondition ++ "\"") ::
            ("    enables feature \"" ++ args.stays_disabled ++ "\" on dependencies:") ::
            depLines ++ rest)

/-- `NeverEnablesCmd::run` (lint.rs:298-349) on an already-loaded snapshot:
collect the offender map and print it. The command never calls `exit`, so a
completed run always carries exit status 0; offenders are reported through the
printed lines only. -/
def neverEnablesRun (args : NEArgs) (meta : Metadata) : Except Panic (List String × Nat) :=
  match nePrint args meta.packages (neOffenders args meta)
      (sortedKeys (neOffenders args meta)) with
  | .error p => .error p
  | .ok lines => .ok (lines, 0)

/-! ### Propagate-Feature -/

/-- Arguments of `PropagateFeatureCmd` (lint.rs:87-115), together with the
manifest path of the shared cargo arguments, whose canonicalized parent is the
allowed-write boundary (lint.rs:354-355). -/
structure PfArgs where
  manifest_path : List String
  feature : String
  packages : List String
  fix : Bool
  fix_dependency : Option String
  fix_package : Option String
  deriving DecidableEq

/-- lint.rs:354-355 — the parent directory of the command-line manifest path. -/
def allowedDir (args : PfArgs) : List String :=
  args.manifest_path.dropLast

/-- lint.rs:358-363 — the packages to check: all of them, or those whose name
occurs in the `--packages` filter. -/
def toCheck (args : PfArgs) (meta : Metadata) : List Package :=
  if args.packages.isEmpty then meta.packages
  else meta.packages.filter (fun pkg => args.packages.contains pkg.name)

/-- The three finding classes of `PropagateFeatureCmd::run` (lint.rs:375-380). -/
structure Flags where
  propagate_missing : List (String × List String)
  feature_missing : List (String × List String)
  feature_maybe_unused : List String
  deriving DecidableEq

/-- lint.rs:386-416 — the scan of one dependency. The state is
`(feature_used, propagate_missing, feature_missing)`: an unresolved dependency
marks the feature used; a resolved dependency declaring the feature is recorded
under `feature_missing` when the package lacks the feature, under
`propagate_missing` when the package's list omits `"<name>/<feature>"`, and
marks the feature used when correctly forwarded. -/
def checkDep (meta : Metadata) (feature : String) (pkg : Package)
    (st : Bool × List (String × List String) × List (String × List String))
    (dep : Dependency) :
    Bool × List (String × List String) × List (String × List String) :=
  match resolve_dep pkg dep meta with
  | none => (true, st.2.1, st.2.2)
  | some rp =>
    if rp.features.any (fun kv => kv.1 == feature) then
      match lookupList pkg.features feature with
      | none => (st.1, st.2.1, insertMap pkg.id rp.id st.2.2)
      | some enabled =>
        if enabled.contains (rp.name ++ "/" ++ feature) then (true, st.2.1, st.2.2)
        else (st.1, insertMap pkg.id rp.id st.2.1, st.2.2)
    else st

/-- lint.rs:382-421 — the scan of one package: fold `checkDep` over its
dependencies starting from `feature_used = false`, and flag
`feature_maybe_unused` when the feature stayed unused though declared. -/
def checkPkg (meta : Metadata) (feature : String) (fl : Flags) (pkg : Package) : Flags :=
  { propagate_missing :=
      (pkg.dependencies.foldl (checkDep meta feature pkg)
        (false, fl.propagate_missing, fl.feature_missing)).2.1,
    feature_missing :=
      (pkg.dependencies.foldl (checkDep meta feature pkg)
        (false, fl.propagate_missing, fl.feature_missing)).2.2,
    feature_maybe_unused :=
      if !(pkg.dependencies.foldl (checkDep meta feature pkg)
            (false, fl.propagate_missing, fl.feature_missing)).1 &&
          pkg.features.any (fun kv => kv.1 == feature) then
        insertSet pkg.id fl.feature_maybe_unused
      else fl.feature_maybe_unused }

/-- lint.rs:382-421 over all checked packages. -/
def computeFlags (args : PfArgs) (meta : Metadata) : Flags :=
  (toCheck args meta).foldl (checkPkg meta args.feature) ⟨[], [], []⟩

/-- Whether one dependency marks the feature as used in the scan of
lint.rs:386-416: it fails to resolve, or it resolves to a package declaring the
feature to which the package correctly forwards it. -/
def usedByDep (meta : Metadata) (feature : String) (pkg : Package) (dep : Dependency) : Bool :=
  match resolve_dep pkg dep meta with
  | none => true
  | some rp =>
    if rp.features.any (fun kv => kv.1 == feature) then
      match lookupList pkg.features feature with
      | none => false
      | some enabled => enabled.contains (rp.name ++ "/" ++ feature)
    else false

/-- lint.rs:422-427 — the union of flagged crate ids, in `BTreeSet` order. -/
def faultyCrates (fl : Flags) : List String :=
  fl.feature_maybe_unused.foldl (fun s k => insertSet k s)
    (fl.feature_missing.foldl (fun s kv => insertSet kv.1 s)
      (fl.propagate_missing.foldl (fun s kv => insertSet kv.1 s) []))

/-- Modelled from the spec: the Manifest Autofixer of §4.7 (`src/autofix.rs`,
not among the sources). The document is abstracted to its manifest path plus
the list of accumulated `(feature, value)` insertions; `add_to_feature` is
idempotent with respect to a value already inserted, and `save` emits one write
carrying the accumulated edits. `from_manifest`'s parse failure and
`add_to_feature`'s missing-feature failure cannot arise in this embedding: the
manifest text is outside the snapshot, and the lint calls `add_to_feature` only
for a feature it saw declared. -/
structure AutoFixer where
  manifest_path : List String
  edits : List (String × String)
  deriving DecidableEq

/-- Modelled from the spec: §4.7 `add_to_feature(feature_name, value)` —
append, unless the value is already recorded (idempotent). -/
def AutoFixer.add_to_feature (f : AutoFixer) (feature value : String) : AutoFixer :=
  if (feature, value) ∈ f.edits then f
  else { f with edits := f.edits ++ [(feature, value)] }

/-- One completed manifest write: the path written and the edits applied. -/
structure Wr where
  path : List String
  edits : List (String × String)
  deriving DecidableEq

/-- The observable state of a Propagate-Feature run: printed lines, completed
manifest writes, the error/warning/fix counters, and the pending panic (`none`
while the run is alive). -/
structure PfSt where
  out : List String
  writes : List Wr
  errors : Nat
  warnings : Nat
  fixes : Nat
  panic : Option Panic
  deriving DecidableEq

/-- The initial run state. -/
def pfInit : PfSt :=
  ⟨[], [], 0, 0, 0, none⟩

/-- lint.rs:445 — the per-crate report header. -/
def crateHeader (args : PfArgs) (krate : Package) : String :=
  "crate \"" ++ krate.name ++ "\"\n  feature \"" ++ args.feature ++ "\""

/-- lint.rs:448-454 and 462-468 — look up each flagged dependency id and
collect the names (panics on an unknown id). -/
def depNames (pkgs : List Package) : List String → Except Panic (List String)
  | [] => .ok []
  | d :: ds =>
    match lookupPkg pkgs d with
    | .error p => .error p
    | .ok dp =>
      match depNames pkgs ds with
      | .error p => .error p
      | .ok ns => .ok (dp.name :: ns)

/-- lint.rs:455-460 — the `feature_missing` report and error count. -/
def fmReport (st : PfSt) (deps : List String) (names : List String) : PfSt :=
  { st with
    out := st.out ++ ["    must exit because " ++ toString deps.length ++
      " dependencies have it:\n      " ++ String.intercalate "\n      " names],
    errors := st.errors + 1 }

/-- lint.rs:469 — the `propagate_missing` report line. -/
def pmReport (st : PfSt) (names : List String) : PfSt :=
  { st with
    out := st.out ++ ["    must propagate to:\n      " ++
      String.intercalate "\n      " names] }

/-- lint.rs:446-461 — the `feature_missing` branch of one crate. -/
def processCrateFm (meta : Metadata) (fl : Flags) (krate : Package) (st : PfSt) : PfSt :=
  match lookupList fl.feature_missing krate.id with
  | none => st
  | some deps =>
    match depNames meta.packages deps with
    | .error p => { st with panic := some p }
    | .ok names => fmReport st deps names

/-- lint.rs:472-489 — the per-dependency fix loop: look each flagged dependency
up by id (a panic on an unknown id), apply the `--fix-dependency` filter, and
append `"<name>/<feature>"` through the fixer when one is present; `fixes`
counts every `add_to_feature` call. -/
def applyFixes (args : PfArgs) (meta : Metadata) (feature : String) :
    List String → Option AutoFixer → Nat → Except Panic (Option AutoFixer × Nat)
  | [], fixer, fixes => .ok (fixer, fixes)
  | dep :: deps, fixer, fixes =>
    match lookupPkg meta.packages dep with
    | .error p => .error p
    | .ok depPkg =>
      if args.fix_dependency.elim true (fun d => d == depPkg.name) then
        match fixer with
        | some f =>
          applyFixes args meta feature deps
            (some (f.add_to_feature feature (depPkg.name ++ "/" ++ feature))) (fixes + 1)
        | none => applyFixes args meta feature deps none fixes
      else applyFixes args meta feature deps fixer fixes

/-- lint.rs:462-492 — the `propagate_missing` branch of one crate: report, then
run the fix loop when fixing is on and the `--fix-package` filter matches, then
count the error. -/
def processCratePm (args : PfArgs) (meta : Metadata) (fl : Flags) (krate : Package)
    (st : PfSt) (fixer : Option AutoFixer) : PfSt × Option AutoFixer :=
  if st.panic.isSome then (st, fixer)
  else
    match lookupList fl.propagate_missing krate.id with
    | none => (st, fixer)
    | some deps =>
      match depNames meta.packages deps with
      | .error p => ({ st with panic := some p }, fixer)
      | .ok names =>
        if args.fix && args.fix_package.elim true (fun p => p == krate.name) then
          match applyFixes args meta args.feature deps fixer (pmReport st names).fixes with
          | .error p => ({ pmReport st names with panic := some p }, fixer)
          | .ok (fixer1, fixes1) =>
            ({ pmReport st names with
                fixes := fixes1,
                errors := (pmReport st names).errors + 1 }, fixer1)
        else ({ pmReport st names with errors := (pmReport st names).errors + 1 }, fixer)

/-- lint.rs:493-495 — save whenever the *cumulative* fix counter is positive;
`fixer.unwrap()` panics when the current crate has no fixer. -/
def processCrateSave (st : PfSt) (fixer : Option AutoFixer) : PfSt :=
  if st.panic.isSome then st
  else if 0 < st.fixes then
    match fixer with
    | some f => { st with writes := st.writes ++ [⟨f.manifest_path, f.edits⟩] }
    | none => { st with panic := some .fixerMissing }
  else st

/-- lint.rs:433-444 — the fixer of one crate: present only when the manifest
lies inside the allowed directory. -/
def crateFixer0 (args : PfArgs) (krate : Package) : Option AutoFixer :=
  if (allowedDir args).isPrefixOf krate.manifest_path then
    some ⟨krate.manifest_path, []⟩
  else none

/-- The pair state after the two report branches of one crate. -/
def processCrateReports (args : PfArgs) (meta : Metadata) (fl : Flags) (krate : Package)
    (st : PfSt) : PfSt × Option AutoFixer :=
  processCratePm args meta fl krate
    (processCrateFm meta fl krate { st with out := st.out ++ [crateHeader args krate] })
    (crateFixer0 args krate)

def processCrateBody (args : PfArgs) (meta : Metadata) (fl : Flags) (krate : Package)
    (st : PfSt) : PfSt :=
  processCrateSave (processCrateReports args meta fl krate st).1
    (processCrateReports args meta fl krate st).2

/-- lint.rs:431-495 — one iteration of the flagged-crate loop (skipped once a
panic is pending). -/
def processCrate (args : PfArgs) (meta : Metadata) (fl : Flags) (st : PfSt)
    (kid : String) : PfSt :=
  if st.panic.isSome then st
  else
    match lookupPkg meta.packages kid with
    | .error p => { st with panic := some p }
    | .ok krate => processCrateBody args meta fl krate st

/-- lint.rs:505 — the final summary line. -/
def summaryLine (st : PfSt) : String :=
  "Generated " ++ toString st.errors ++ " errors and " ++ toString st.warnings ++
    " warnings and fixed " ++ toString st.fixes ++ " issues."

/-- lint.rs:504-506 — print the summary when anything was counted; the function
then returns: no `exit` call follows. -/
def pfFinalize (st : PfSt) : PfSt :=
  if st.panic.isSome then st
  else if 0 < st.errors ∨ 0 < st.warnings then
    { st with out := st.out ++ [summaryLine st] }
  else st

/-- `PropagateFeatureCmd::run` (lint.rs:352-508) on an already-loaded snapshot:
panic when the package filter selects nothing, scan every checked package for
the three finding classes, process each flagged crate in `BTreeSet` id order,
and print the summary. -/
def propagateRun (args : PfArgs) (meta : Metadata) : PfSt :=
  if (toCheck args meta).isEmpty then { pfInit with panic := some .noPackagesFound }
  else
    pfFinalize
      ((faultyCrates (computeFlags args meta)).foldl
        (processCrate args meta (computeFlags args meta)) pfInit)

/-- The process exit status of a Propagate-Feature run: the run function
returns normally — there is no `exit` call in lint.rs:352-508 — so the process
exits 0 unless a panic aborts it. -/
def propagateExitCode (args : PfArgs) (meta : Metadata) : Nat :=
  if (propagateRun args meta).panic.isSome then 101 else 0

/-- Workspace member `b`, declaring feature `std`. -/
def pkgBstd : Package :=
  { id := "ib", name := "b", version := "1.0.0", source := none,
    manifest_path := ["ws", "b", "Cargo.toml"], dependencies := [],
    features := [("std", [])] }

/-- Workspace member `a`: depends on `b`, declares `std = []` without
forwarding it to `b`. -/
def pkgAstd : Package :=
  { id := "ia", name := "a", version := "1.0.0", source := none,
    manifest_path := ["ws", "a", "Cargo.toml"], dependencies := [depB],
    features := [("std", [])] }

/-- Snapshot of the propagation gap: `a` must forward `std` to `b`. -/
def metaPF : Metadata :=
  { packages := [pkgAstd, pkgBstd], workspace_members := ["ia", "ib"], resolve := none }

/-- Propagate-Feature arguments `--feature std --fix`, workspace rooted at
`ws/Cargo.toml`. -/
def argsPF : PfArgs :=
  { manifest_path := ["ws", "Cargo.toml"], feature := "std", packages := [],
    fix := true, fix_dependency := none, fix_package := none }

/-- The same arguments without `--fix`. -/
def argsPFnoFix : PfArgs :=
  { manifest_path := ["ws", "Cargo.toml"], feature := "std", packages := [],
    fix := false, fix_dependency := none, fix_package := none }

/-- A dependency on `zzz`, which no workspace member provides. -/
def depMissing : Dependency :=
  { name := "zzz", rename := none, uses_default_features := true, features := [] }

/-- A package declaring `std` whose only dependency does not resolve. -/
def pkgU : Package :=
  { id := "iu", name := "u", version := "1.0.0", source := none,
    manifest_path := ["ws", "u", "Cargo.toml"], dependencies := [depMissing],
    features := [("std", [])] }

/-- Snapshot for the unresolved-dependency corner of `feature_maybe_unused`. -/
def metaU : Metadata :=
  { packages := [pkgU], workspace_members := ["iu"], resolve := none }

/-- Propagate-Feature arguments `--feature std` for `metaU`. -/
def argsU : PfArgs :=
  { manifest_path := ["ws", "Cargo.toml"], feature := "std", packages := [],
    fix := false, fix_dependency := none, fix_package := none }

/-! ## Theorems

First the dependency-resolver claims, then the graph builder, the Never-Implies
scan, the Never-Enables check and the Propagate-Feature check. -/

/-- **C5** (counterexample): for the renamed dependency `foo-bar as baz`,
`resolve_dep_from_graph` follows the edge named after the *declared* name
(`foo_bar`, reaching `pkgFoo`) although an edge for the rename (`baz`) exists;
the spec-worded resolver reaches `pkgBaz` instead, so the claim that the
implementation matches the effective (rename-aware) name is false. -/
theorem resolve_dep_rename_counterexample :
    resolve_dep_from_graph pkgP5 depFooBar meta5 graph5 = some pkgFoo ∧
    resolve_dep_from_graph_effective pkgP5 depFooBar meta5 graph5 = some pkgBaz ∧
    pkgFoo ≠ pkgBaz := by
  refine ⟨by decide, by decide, by decide⟩

/-- **C5** (amended): `resolve_dep_from_graph` matches the resolved edge whose
name equals the dependency's *declared* name with dashes folded to underscores;
the `rename` field is ignored entirely, and the returned package is the one of
the snapshot carrying the matched edge's target id. -/
theorem resolve_dep_from_graph_uses_declared_name (pkg : Package) (dep : Dependency)
    (meta : Metadata) (resolve : ResolveGraph) :
    (∀ rn, resolve_dep_from_graph pkg { dep with rename := rn } meta resolve =
      resolve_dep_from_graph pkg dep meta resolve) ∧
    (∀ p, resolve_dep_from_graph pkg dep meta resolve = some p →
      ∃ node ∈ resolve.nodes, node.id = pkg.id ∧
        ∃ nd ∈ node.deps, nd.name = replaceDash dep.name ∧ p ∈ meta.packages ∧ p.id = nd.pkg) := by
  constructor
  · intro rn
    rfl
  · intro p hp
    unfold resolve_dep_from_graph at hp
    rcases hn : resolve.nodes.find? (fun node => node.id == pkg.id) with _ | node
    · simp only [hn] at hp
      exact Option.noConfusion hp
    rcases hd : node.deps.find? (fun nd => nd.name == replaceDash dep.name) with _ | nd
    · simp only [hn, hd] at hp
      exact Option.noConfusion hp
    simp only [hn, hd] at hp
    have h1 := List.find?_some hn
    have h2 := List.find?_some hd
    have h3 := List.find?_some hp
    exact ⟨node, List.mem_of_find?_eq_some hn, eq_of_beq h1, nd, List.mem_of_find?_eq_some hd,
      eq_of_beq h2, List.mem_of_find?_eq_some hp, eq_of_beq h3⟩

/-- Witness for the amended C5 theorem at the concrete snapshot `meta5`. -/
theorem resolve_dep_from_graph_uses_declared_name_witness :
    ∃ node ∈ graph5.nodes, node.id = pkgP5.id ∧
      ∃ nd ∈ node.deps, nd.name = replaceDash depFooBar.name ∧
        pkgFoo ∈ meta5.packages ∧ pkgFoo.id = nd.pkg :=
  (resolve_dep_from_graph_uses_declared_name pkgP5 depFooBar meta5 graph5).2 pkgFoo (by decide)

/-- **C8**: with no resolve graph, a dependency resolves only to a workspace
member whose declared name equals the dependency's name exactly (assuming the
snapshot's package ids are unique, as the data model requires), and when no
workspace member carries that name the resolver returns `none`. -/
theorem resolve_dep_from_workspace_members_only (dep : Dependency) (meta : Metadata)
    (hu : (meta.packages.map Package.id).Nodup) :
    (∀ p, resolve_dep_from_workspace dep meta = some p →
      p ∈ workspace_packages meta ∧ p.name = dep.name) ∧
    ((∀ w ∈ workspace_packages meta, w.name ≠ dep.name) →
      resolve_dep_from_workspace dep meta = none) := by
  constructor
  · intro p hp
    unfold resolve_dep_from_workspace at hp
    rcases hw : (workspace_packages meta).find? (fun work => work.name == dep.name) with _ | w
    · simp only [hw] at hp
      exact Option.noConfusion hp
    simp only [hw] at hp
    have hwmem : w ∈ workspace_packages meta := List.mem_of_find?_eq_some hw
    have hwname := List.find?_some hw
    have hpmem : p ∈ meta.packages := List.mem_of_find?_eq_some hp
    have hpid := List.find?_some hp
    have hwpkgs : w ∈ meta.packages := List.mem_of_mem_filter hwmem
    have hpw : p = w := List.inj_on_of_nodup_map hu hpmem hwpkgs (eq_of_beq hpid)
    subst hpw
    exact ⟨hwmem, eq_of_beq hwname⟩
  · intro hall
    unfold resolve_dep_from_workspace
    rcases hw : (workspace_packages meta).find? (fun work => work.name == dep.name) with _ | w
    · simp only [hw]
    · have hwname := List.find?_some hw
      exact absurd (eq_of_beq hwname) (hall w (List.mem_of_find?_eq_some hw))

/-- Witness for C8: in the workspace snapshot `metaAB`, the dependency `depB`
resolves to the member `pkgB`, which indeed has the matching name. -/
theorem resolve_dep_from_workspace_members_only_witness :
    pkgB ∈ workspace_packages metaAB ∧ pkgB.name = depB.name :=
  (resolve_dep_from_workspace_members_only depB metaAB (by decide)).1 pkgB (by decide)

/-! ### Graph-builder lemmas -/

theorem Dag.mem_add_edge_self (d : Dag) (a b : CrateAndFeature) :
    (a, b) ∈ (d.add_edge a b).edges := by
  unfold Dag.add_edge
  split
  · assumption
  · exact List.mem_append_right _ (List.mem_singleton.mpr rfl)

theorem Dag.mem_add_edge_of_mem (d : Dag) (a b : CrateAndFeature)
    {e : CrateAndFeature × CrateAndFeature} (h : e ∈ d.edges) :
    e ∈ (d.add_edge a b).edges := by
  unfold Dag.add_edge
  split
  · exact h
  · exact List.mem_append_left _ h

theorem foldl_dag_mono {α : Type} (g : Dag → α → Dag)
    (hg : ∀ d x, ∀ e ∈ d.edges, e ∈ (g d x).edges) :
    ∀ (l : List α) (d : Dag), ∀ e ∈ d.edges, e ∈ (l.foldl g d).edges := by
  intro l
  induction l with
  | nil => intro d e he; exact he
  | cons x xs ih => intro d e he; exact ih (g d x) e (hg d x e he)

theorem foldl_dag_mem {α : Type} (g : Dag → α → Dag)
    (hg : ∀ d x, ∀ e ∈ d.edges, e ∈ (g d x).edges)
    {e : CrateAndFeature × CrateAndFeature} {x : α}
    (hstep : ∀ d, e ∈ (g d x).edges) :
    ∀ (l : List α), x ∈ l → ∀ d, e ∈ (l.foldl g d).edges := by
  intro l
  induction l with
  | nil => intro hx d; exact absurd hx (List.not_mem_nil x)
  | cons y ys ih =>
    intro hx d
    rcases List.mem_cons.mp hx with rfl | hx
    · exact foldl_dag_mono g hg ys (g d x) e (hstep d)
    · exact ih hx (g d y)

theorem addDepEdge_mono (pkgId : String) (dag : Dag) (dep : Dependency)
    {e : CrateAndFeature × CrateAndFeature} (h : e ∈ dag.edges) :
    e ∈ (addDepEdge pkgId dag dep).edges := by
  unfold addDepEdge
  apply foldl_dag_mono _ (fun d x e1 he => Dag.mem_add_edge_of_mem d _ _ he)
  split
  · exact Dag.mem_add_edge_of_mem dag _ _ h
  · exact h

theorem addDepEdge_mem_default (pkgId : String) (dag : Dag) (dep : Dependency)
    (h : dep.uses_default_features = true) :
    (⟨pkgId, "default"⟩, ⟨dep.name, "default"⟩) ∈ (addDepEdge pkgId dag dep).edges := by
  unfold addDepEdge
  apply foldl_dag_mono _ (fun d x e1 he => Dag.mem_add_edge_of_mem d _ _ he)
  rw [if_pos h]
  exact Dag.mem_add_edge_self _ _ _

theorem addDepEdge_mem_feature (pkgId : String) (dag : Dag) (dep : Dependency)
    {f : String} (hf : f ∈ dep.features) :
    (⟨pkgId, "default"⟩, ⟨dep.name, f⟩) ∈ (addDepEdge pkgId dag dep).edges := by
  unfold addDepEdge
  exact foldl_dag_mem (fun g x => Dag.add_edge g ⟨pkgId, "default"⟩ ⟨dep.name, x⟩)
    (fun d x e1 he => Dag.mem_add_edge_of_mem d _ _ he)
    (fun d => Dag.mem_add_edge_self d _ _) dep.features hf _

theorem addDepEdges_mono (pkg : Package) (dag : Dag)
    {e : CrateAndFeature × CrateAndFeature} (h : e ∈ dag.edges) :
    e ∈ (addDepEdges pkg dag).edges :=
  foldl_dag_mono _ (fun d x e1 he => addDepEdge_mono _ _ _ he) _ _ _ h

theorem addDepEdges_mem_default (pkg : Package) (dag : Dag) {dep : Dependency}
    (hdep : dep ∈ pkg.dependencies) (h : dep.uses_default_features = true) :
    (⟨pkg.id, "default"⟩, ⟨dep.name, "default"⟩) ∈ (addDepEdges pkg dag).edges := by
  unfold addDepEdges
  exact foldl_dag_mem (addDepEdge pkg.id)
    (fun d x e1 he => addDepEdge_mono _ _ _ he)
    (fun d => addDepEdge_mem_default pkg.id d dep h) pkg.dependencies hdep dag

theorem addDepEdges_mem_feature (pkg : Package) (dag : Dag) {dep : Dependency}
    (hdep : dep ∈ pkg.dependencies) {f : String} (hf : f ∈ dep.features) :
    (⟨pkg.id, "default"⟩, ⟨dep.name, f⟩) ∈ (addDepEdges pkg dag).edges := by
  unfold addDepEdges
  exact foldl_dag_mem (addDepEdge pkg.id)
    (fun d x e1 he => addDepEdge_mono _ _ _ he)
    (fun d => addDepEdge_mem_feature pkg.id d dep hf) pkg.dependencies hdep dag

theorem processImplication_mono {meta : Metadata} {pkg : Package} {feature dep : String}
    {dag dag1 : Dag} (h : processImplication meta pkg feature dag dep = .ok dag1) :
    ∀ e ∈ dag.edges, e ∈ dag1.edges := by
  intro e he
  unfold processImplication at h
  split at h
  · split at h
    · exact Except.noConfusion h
    · injection h with h
      subst h
      exact Dag.mem_add_edge_of_mem _ _ _ he
  · split at h
    · split at h
      · exact Except.noConfusion h
      · injection h with h
        subst h
        exact Dag.mem_add_edge_of_mem _ _ _ he
    · split at h
      · injection h with h
        subst h
        exact Dag.mem_add_edge_of_mem _ _ _ he
      · exact Except.noConfusion h

theorem processImplications_mono {meta : Metadata} {pkg : Package} {feature : String} :
    ∀ {deps : List String} {dag dag1 : Dag},
      processImplications meta pkg feature dag deps = .ok dag1 →
      ∀ e ∈ dag.edges, e ∈ dag1.edges := by
  intro deps
  induction deps with
  | nil =>
    intro dag dag1 h e he
    unfold processImplications at h
    injection h with h
    subst h
    exact he
  | cons d ds ih =>
    intro dag dag1 h e he
    unfold processImplications at h
    cases hpi : processImplication meta pkg feature dag d with
    | error e1 =>
      simp only [hpi] at h
      exact Except.noConfusion h
    | ok dag2 =>
      simp only [hpi] at h
      exact ih h e (processImplication_mono hpi e he)

theorem processFeatures_mono {meta : Metadata} {pkg : Package} :
    ∀ {fts : List (String × List String)} {dag dag1 : Dag},
      processFeatures meta pkg dag fts = .ok dag1 →
      ∀ e ∈ dag.edges, e ∈ dag1.edges := by
  intro fts
  induction fts with
  | nil =>
    intro dag dag1 h e he
    unfold processFeatures at h
    injection h with h
    subst h
    exact he
  | cons fd rest ih =>
    intro dag dag1 h e he
    unfold processFeatures at h
    cases hpi : processImplications meta pkg fd.1 dag fd.2 with
    | error e1 =>
      simp only [hpi] at h
      exact Except.noConfusion h
    | ok dag2 =>
      simp only [hpi] at h
      exact ih h e (processImplications_mono hpi e he)

theorem buildDagGo_mono {meta : Metadata} :
    ∀ {pkgs : List Package} {dag0 dag : Dag},
      buildDagGo meta dag0 pkgs = .ok dag → ∀ e ∈ dag0.edges, e ∈ dag.edges := by
  intro pkgs
  induction pkgs with
  | nil =>
    intro dag0 dag h e he
    unfold buildDagGo at h
    injection h with h
    subst h
    exact he
  | cons p ps ih =>
    intro dag0 dag h e he
    unfold buildDagGo at h
    cases hpf : processFeatures meta p (addDepEdges p dag0) p.features with
    | error e1 =>
      simp only [hpf] at h
      exact Except.noConfusion h
    | ok dag1 =>
      simp only [hpf] at h
      exact ih h e (processFeatures_mono hpf e (addDepEdges_mono p dag0 he))

theorem processImplication_ok_bareOk {meta : Metadata} {pkg : Package} {feature dep : String}
    {dag dag1 : Dag} (h : processImplication meta pkg feature dag dep = .ok dag1) :
    bareOkStr pkg dep = true := by
  unfold processImplication at h
  unfold bareOkStr
  split at h
  next hc => simp [hc]
  next hc =>
    split at h
    next hc2 => simp [hc2]
    next hc2 =>
      split at h
      next hc3 => simp [hc3]
      next hc3 => exact Except.noConfusion h

theorem processImplications_ok_bareOk {meta : Metadata} {pkg : Package} {feature : String} :
    ∀ {deps : List String} {dag dag1 : Dag},
      processImplications meta pkg feature dag deps = .ok dag1 →
      ∀ dep ∈ deps, bareOkStr pkg dep = true := by
  intro deps
  induction deps with
  | nil => intro dag dag1 h dep hdep; exact absurd hdep (List.not_mem_nil dep)
  | cons d ds ih =>
    intro dag dag1 h dep hdep
    unfold processImplications at h
    cases hpi : processImplication meta pkg feature dag d with
    | error e1 =>
      simp only [hpi] at h
      exact Except.noConfusion h
    | ok dag2 =>
      simp only [hpi] at h
      rcases List.mem_cons.mp hdep with rfl | hdep2
      · exact processImplication_ok_bareOk hpi
      · exact ih h dep hdep2

theorem processFeatures_ok_bareOk {meta : Metadata} {pkg : Package} :
    ∀ {fts : List (String × List String)} {dag dag1 : Dag},
      processFeatures meta pkg dag fts = .ok dag1 →
      ∀ fd ∈ fts, ∀ dep ∈ fd.2, bareOkStr pkg dep = true := by
  intro fts
  induction fts with
  | nil => intro dag dag1 h fd hfd; exact absurd hfd (List.not_mem_nil fd)
  | cons fd0 rest ih =>
    intro dag dag1 h fd hfd
    unfold processFeatures at h
    cases hpi : processImplications meta pkg fd0.1 dag fd0.2 with
    | error e1 =>
      simp only [hpi] at h
      exact Except.noConfusion h
    | ok dag2 =>
      simp only [hpi] at h
      rcases List.mem_cons.mp hfd with rfl | hfd2
      · exact processImplications_ok_bareOk hpi
      · exact ih h fd hfd2

theorem buildDagGo_ok_bareOk {meta : Metadata} :
    ∀ {pkgs : List Package} {dag0 dag : Dag},
      buildDagGo meta dag0 pkgs = .ok dag → ∀ pkg ∈ pkgs, bareOkPkg pkg = true := by
  intro pkgs
  induction pkgs with
  | nil => intro dag0 dag h pkg hpkg; exact absurd hpkg (List.not_mem_nil pkg)
  | cons p ps ih =>
    intro dag0 dag h pkg hpkg
    unfold buildDagGo at h
    cases hpf : processFeatures meta p (addDepEdges p dag0) p.features with
    | error e1 =>
      simp only [hpf] at h
      exact Except.noConfusion h
    | ok dag1 =>
      simp only [hpf] at h
      rcases List.mem_cons.mp hpkg with rfl | hpkg2
      · unfold bareOkPkg
        refine List.all_eq_true.mpr ?_
        intro fd hfd
        refine List.all_eq_true.mpr ?_
        intro dep hdep
        exact processFeatures_ok_bareOk hpf fd hfd dep hdep
      · exact ih h pkg hpkg2

theorem processImplication_not_bareErr {meta : Metadata} {pkg : Package} {feature dep : String}
    {dag : Dag} (hb : bareOkStr pkg dep = true) :
    isBareUnknownErr (processImplication meta pkg feature dag dep) = false := by
  unfold processImplication
  split
  next hc =>
    split
    · rfl
    · rfl
  next hc =>
    split
    next hc2 =>
      split
      · rfl
      · rfl
    next hc2 =>
      split
      next hc3 => rfl
      next hc3 =>
        exfalso
        rw [bareOkStr, Bool.or_eq_true, Bool.or_eq_true] at hb
        rcases hb with (h1 | h1) | h1
        · exact hc h1
        · exact hc2 h1
        · exact hc3 h1

theorem processImplications_not_bareErr {meta : Metadata} {pkg : Package} {feature : String} :
    ∀ {deps : List String} {dag : Dag},
      (∀ dep ∈ deps, bareOkStr pkg dep = true) →
      isBareUnknownErr (processImplications meta pkg feature dag deps) = false := by
  intro deps
  induction deps with
  | nil => intro dag hb; rfl
  | cons d ds ih =>
    intro dag hb
    unfold processImplications
    cases hpi : processImplication meta pkg feature dag d with
    | error e1 =>
      have h1 : isBareUnknownErr (processImplication meta pkg feature dag d) = false :=
        processImplication_not_bareErr (hb d (List.mem_cons_self d ds))
      rw [hpi] at h1
      exact h1
    | ok dag2 =>
      exact ih (fun dep hdep => hb dep (List.mem_cons_of_mem d hdep))

theorem processFeatures_not_bareErr {meta : Metadata} {pkg : Package} :
    ∀ {fts : List (String × List String)} {dag : Dag},
      (∀ fd ∈ fts, ∀ dep ∈ fd.2, bareOkStr pkg dep = true) →
      isBareUnknownErr (processFeatures meta pkg dag fts) = false := by
  intro fts
  induction fts with
  | nil => intro dag hb; rfl
  | cons fd0 rest ih =>
    intro dag hb
    unfold processFeatures
    cases hpi : processImplications meta pkg fd0.1 dag fd0.2 with
    | error e1 =>
      have h1 : isBareUnknownErr (processImplications meta pkg fd0.1 dag fd0.2) = false :=
        processImplications_not_bareErr (hb fd0 (List.mem_cons_self fd0 rest))
      rw [hpi] at h1
      exact h1
    | ok dag2 =>
      exact ih (fun fd hfd dep hdep => hb fd (List.mem_cons_of_mem fd0 hfd) dep hdep)

theorem buildDagGo_not_bareErr {meta : Metadata} :
    ∀ {pkgs : List Package} {dag0 : Dag},
      (∀ pkg ∈ pkgs, bareOkPkg pkg = true) →
      isBareUnknownErr (buildDagGo meta dag0 pkgs) = false := by
  intro pkgs
  induction pkgs with
  | nil => intro dag0 hb; rfl
  | cons p ps ih =>
    intro dag0 hb
    unfold buildDagGo
    cases hpf : processFeatures meta p (addDepEdges p dag0) p.features with
    | error e1 =>
      have hp := hb p (List.mem_cons_self p ps)
      unfold bareOkPkg at hp
      have h1 : isBareUnknownErr (processFeatures meta p (addDepEdges p dag0) p.features) =
          false :=
        processFeatures_not_bareErr
          (fun fd hfd dep hdep =>
            List.all_eq_true.mp (List.all_eq_true.mp hp fd hfd) dep hdep)
      rw [hpf] at h1
      exact h1
    | ok dag1 =>
      exact ih (fun pkg hpkg => hb pkg (List.mem_cons_of_mem p hpkg))

theorem buildDagGo_dep_edges (meta : Metadata) :
    ∀ (pkgs : List Package) (dag0 dag : Dag), buildDagGo meta dag0 pkgs = .ok dag →
      ∀ pkg ∈ pkgs, ∀ dep ∈ pkg.dependencies,
        (dep.uses_default_features = true →
          (⟨pkg.id, "default"⟩, ⟨dep.name, "default"⟩) ∈ dag.edges) ∧
        (∀ f ∈ dep.features, (⟨pkg.id, "default"⟩, ⟨dep.name, f⟩) ∈ dag.edges) := by
  intro pkgs
  induction pkgs with
  | nil => intro dag0 dag h pkg hpkg; exact absurd hpkg (List.not_mem_nil pkg)
  | cons p ps ih =>
    intro dag0 dag h pkg hpkg dep hdep
    unfold buildDagGo at h
    cases hpf : processFeatures meta p (addDepEdges p dag0) p.features with
    | error e1 =>
      simp only [hpf] at h
      exact Except.noConfusion h
    | ok dag1 =>
      simp only [hpf] at h
      rcases List.mem_cons.mp hpkg with rfl | hpkg2
      · constructor
        · intro hu
          exact buildDagGo_mono h _
            (processFeatures_mono hpf _ (addDepEdges_mem_default pkg dag0 hdep hu))
        · intro f hf
          exact buildDagGo_mono h _
            (processFeatures_mono hpf _ (addDepEdges_mem_feature pkg dag0 hdep hf))
      · exact ih dag1 dag h pkg hpkg2 dep hdep

/-- **C1** (counterexample): in the workspace snapshot `metaAB` the declared
dependency `b` of `a` resolves successfully to `pkgB` (package id `ib`), yet the
declared-dependency edge the builder adds targets the vertex keyed by the
*declared name* `b`, and no edge targets the resolved id `ib` — the claim that
the target is keyed by `resolve(D)` whenever resolution succeeds is false. -/
theorem never_implies_dep_edge_target_counterexample :
    resolve_dep pkgA depB metaAB = some pkgB ∧
    pkgB.id ≠ depB.name ∧
    (⟨pkgA.id, "default"⟩, ⟨depB.name, "default"⟩) ∈ dagEdgesOf metaAB ∧
    (⟨pkgA.id, "default"⟩, ⟨pkgB.id, "default"⟩) ∉ dagEdgesOf metaAB := by
  refine ⟨by decide, by decide, by decide, by decide⟩

/-- **C1** (amended): for every declared dependency D of P, the builder adds the
edge `(P,"default") → (D.name,"default")` when `uses_default_features` is set
and `(P,"default") → (D.name,F)` for each feature F requested in the
declaration; the target is always keyed by D's *declared name* — `resolve_dep`
is never consulted in this loop, whether or not resolution would succeed. -/
theorem never_implies_dep_edges_by_declared_name (meta : Metadata) (dag : Dag)
    (hok : buildDag meta = .ok dag) :
    ∀ pkg ∈ meta.packages, ∀ dep ∈ pkg.dependencies,
      (dep.uses_default_features = true →
        (⟨pkg.id, "default"⟩, ⟨dep.name, "default"⟩) ∈ dag.edges) ∧
      (∀ f ∈ dep.features, (⟨pkg.id, "default"⟩, ⟨dep.name, f⟩) ∈ dag.edges) :=
  buildDagGo_dep_edges meta meta.packages ⟨[]⟩ dag hok

/-- Witness for the amended C1 theorem at the concrete snapshot `metaAB`. -/
theorem never_implies_dep_edges_by_declared_name_witness :
    (⟨pkgA.id, "default"⟩, ⟨depB.name, "default"⟩) ∈
      (Dag.mk [(⟨"ia", "default"⟩, ⟨"b", "default"⟩)]).edges :=
  (never_implies_dep_edges_by_declared_name metaAB ⟨[(⟨"ia", "default"⟩, ⟨"b", "default"⟩)]⟩
    rfl pkgA (by decide) depB (by decide)).1 rfl

/-- **C7**: during Never-Implies graph construction a bare-token implication
whose token is not a key of the same package's feature map aborts the build
(a successful build certifies every bare token is a known own-feature), and on
any snapshot whose bare tokens all name known own-features the build never hits
the bare-token error branch (other metadata-integrity errors are still
possible). -/
theorem never_implies_bare_token_hard_error (meta : Metadata) :
    (∀ dag, buildDag meta = .ok dag → allBareKnown meta = true) ∧
    (allBareKnown meta = true → isBareUnknownErr (buildDag meta) = false) := by
  constructor
  · intro dag h
    unfold allBareKnown
    exact List.all_eq_true.mpr (fun pkg hpkg => buildDagGo_ok_bareOk h pkg hpkg)
  · intro hb
    unfold allBareKnown at hb
    unfold buildDag
    exact buildDagGo_not_bareErr (fun pkg hpkg => List.all_eq_true.mp hb pkg hpkg)

/-- Witness for C7: the snapshot `metaAB` has only known bare tokens and indeed
builds without the bare-token error, while `metaBadBare` (whose `std` feature
lists the unknown token `nope`) aborts with exactly that error. -/
theorem never_implies_bare_token_hard_error_witness :
    allBareKnown metaAB = true ∧ isBareUnknownErr (buildDag metaAB) = false ∧
    buildDag metaBadBare = .error (.bareUnknown "ibad" "nope") :=
  ⟨by decide, (never_implies_bare_token_hard_error metaAB).2 (by decide), rfl⟩

theorem findViolationGo_eq_find {dag : Dag} {pre dis : String} :
    ∀ {l : List CrateAndFeature} {v : CrateAndFeature} {path : List CrateAndFeature},
      findViolationGo dag pre dis l = some (v, path) →
      l.find? (offendingVertex dag pre dis) = some v ∧
      dag.reachable_predicate v (fun u => u.feature == dis) = some path := by
  intro l
  induction l with
  | nil => intro v path h; exact Option.noConfusion h
  | cons w rest ih =>
    intro v path h
    unfold findViolationGo at h
    by_cases hw : (w.feature == pre) = true
    · rw [if_pos hw] at h
      cases hr : dag.reachable_predicate w (fun u => u.feature == dis) with
      | none =>
        simp only [hr] at h
        have hoff : offendingVertex dag pre dis w = false := by
          unfold offendingVertex
          rw [hw, hr]
          rfl
        rw [List.find?_cons_of_neg _ (by simp [hoff])]
        exact ih h
      | some p0 =>
        simp only [hr] at h
        have h2 := Option.some.inj h
        have hv1 : w = v := congrArg Prod.fst h2
        have hp1 : p0 = path := congrArg Prod.snd h2
        subst hv1
        subst hp1
        have hoff : offendingVertex dag pre dis w = true := by
          unfold offendingVertex
          rw [hw, hr]
          rfl
        rw [List.find?_cons_of_pos _ hoff]
        exact ⟨rfl, hr⟩
    · rw [if_neg hw] at h
      have hoff : offendingVertex dag pre dis w = false := by
        unfold offendingVertex
        rw [Bool.eq_false_iff.mpr hw]
        rfl
      rw [List.find?_cons_of_neg _ (by simp [hoff])]
      exact ih h

theorem renderSegs_ok {args : NIArgs} {pkgs : List Package} :
    ∀ {path : List CrateAndFeature},
      (∀ cf ∈ path, (pkgs.find? (fun pkg => pkg.id == cf.id)).isSome = true) →
      ∃ segs, renderSegs args pkgs path = .ok segs := by
  intro path
  induction path with
  | nil => intro hr; exact ⟨[], rfl⟩
  | cons cf rest ih =>
    intro hr
    have h1 : (pkgs.find? (fun pkg => pkg.id == cf.id)).isSome = true :=
      hr cf (List.mem_cons_self cf rest)
    cases hs : renderSegs args pkgs (cf :: rest) with
    | ok segs => exact ⟨segs, rfl⟩
    | error p =>
      exfalso
      unfold renderSegs at hs
      cases hk : pkgs.find? (fun pkg => pkg.id == cf.id) with
      | none => rw [hk] at h1; exact Bool.noConfusion h1
      | some krate =>
        obtain ⟨segs, hsegs⟩ := ih (fun c hc => hr c (List.mem_cons_of_mem cf hc))
        unfold renderSeg at hs
        simp only [hk, hsegs] at hs
        exact Except.noConfusion hs

/-- **C3** (counterexample): on `meta3` the scan does find, for the
`lhs_nodes()` vertex with the precondition feature, a reachable vertex with the
`stays_disabled` feature — but that vertex is an unresolved placeholder, so the
run aborts in the path-rendering id lookup instead of printing the path and
exiting; nothing is printed, refuting the claimed "prints the path". -/
theorem never_implies_violation_panic_counterexample :
    findViolationOf meta3 "default" "std" =
      some (⟨"ida", "default"⟩, [⟨"ida", "default"⟩, ⟨"b", "std"⟩]) ∧
    neverImpliesRun args3 meta3 = .error (.unknownCrate "b") :=
  ⟨rfl, rfl⟩

/-- **C3** (amended): if the scan finds a violation `(v, path)` and every vertex
of the discovered path is keyed by the id of a snapshot package (in particular,
no placeholder vertex occurs on it), the run prints exactly one path line and
exits with status 1; the reported vertex `v` is the first entry of
`lhs_nodes()` (in order) whose feature equals the precondition and from which a
`stays_disabled` vertex is reachable, so at most one violation is reported per
run. When a path vertex is a placeholder the process still terminates
abnormally (a panic, hence non-zero), but without printing the path. -/
theorem never_implies_first_violation_reported (args : NIArgs) (meta : Metadata)
    (dag : Dag) (hok : buildDag meta = .ok dag)
    (v : CrateAndFeature) (path : List CrateAndFeature)
    (hv : findViolation dag args.precondition args.stays_disabled = some (v, path))
    (hr : ∀ cf ∈ path, (meta.packages.find? (fun pkg => pkg.id == cf.id)).isSome = true) :
    (∃ line, neverImpliesRun args meta = .ok ([line], 1)) ∧
    dag.lhs_nodes.find? (offendingVertex dag args.precondition args.stays_disabled) = some v ∧
    dag.reachable_predicate v (fun u => u.feature == args.stays_disabled) = some path := by
  obtain ⟨hfind, hreach⟩ := findViolationGo_eq_find hv
  obtain ⟨segs, hsegs⟩ : ∃ segs, renderSegs args meta.packages path = .ok segs :=
    renderSegs_ok hr
  refine ⟨⟨violationLine args segs, ?_⟩, hfind, hreach⟩
  unfold neverImpliesRun
  rw [hok]
  simp only [hv, hsegs]

/-- Witness for the amended C3 theorem: on `metaXY`, Never-Implies with
precondition `rb` and forbidden feature `std` reports the single path
`x/rb → y/rt → y/std` found at the first offending vertex. -/
theorem never_implies_first_violation_reported_witness :
    (∃ line, neverImpliesRun argsC metaXY = .ok ([line], 1)) ∧
    dagXY.lhs_nodes.find? (offendingVertex dagXY "rb" "std") = some ⟨"ix", "rb"⟩ ∧
    dagXY.reachable_predicate ⟨"ix", "rb"⟩ (fun u => u.feature == "std") =
      some [⟨"ix", "rb"⟩, ⟨"iy", "rt"⟩, ⟨"iy", "std"⟩] :=
  never_implies_first_violation_reported argsC metaXY dagXY rfl
    ⟨"ix", "rb"⟩ [⟨"ix", "rb"⟩, ⟨"iy", "rt"⟩, ⟨"iy", "std"⟩] rfl (by decide)

/-! ### Map and set lemmas -/

theorem insertSet_mem (x : String) : ∀ (l : List String) (y : String),
    y ∈ insertSet x l ↔ y = x ∨ y ∈ l := by
  intro l
  induction l with
  | nil =>
    intro y
    unfold insertSet
    simp
  | cons z zs ih =>
    intro y
    unfold insertSet
    by_cases h1 : x = z
    · rw [if_pos h1]
      subst h1
      simp only [List.mem_cons]
      tauto
    · rw [if_neg h1]
      by_cases h2 : strLt x z = true
      · rw [if_pos h2]
        simp only [List.mem_cons]
      · rw [if_neg h2]
        simp only [List.mem_cons, ih]
        tauto

theorem lookupList_cons (a : String) (s : List String)
    (rest : List (String × List String)) (k1 : String) :
    lookupList ((a, s) :: rest) k1 = if a = k1 then some s else lookupList rest k1 := by
  unfold lookupList
  by_cases h : a = k1
  · simp [List.find?_cons, h]
  · simp [List.find?_cons, h]

theorem mapMem_nil (k v : String) : MapMem [] k v ↔ False :=
  ⟨fun ⟨_, hs, _⟩ => Option.noConfusion hs, False.elim⟩

theorem mapMem_cons (a : String) (s : List String) (rest : List (String × List String))
    (k1 v1 : String) :
    MapMem ((a, s) :: rest) k1 v1 ↔ (a = k1 ∧ v1 ∈ s) ∨ (a ≠ k1 ∧ MapMem rest k1 v1) := by
  unfold MapMem
  rw [lookupList_cons]
  by_cases h : a = k1
  · simp [h]
  · simp [h]

theorem insertMap_mapMem (k v : String) : ∀ (m : List (String × List String)) (k1 v1 : String),
    MapMem (insertMap k v m) k1 v1 ↔ (k = k1 ∧ v1 = v) ∨ MapMem m k1 v1 := by
  intro m
  induction m with
  | nil =>
    intro k1 v1
    show MapMem [(k, [v])] k1 v1 ↔ _
    rw [mapMem_cons]
    simp [mapMem_nil]
  | cons p rest ih =>
    intro k1 v1
    obtain ⟨a, s⟩ := p
    unfold insertMap
    by_cases h1 : k = a
    · rw [if_pos h1]
      subst h1
      rw [mapMem_cons, mapMem_cons, insertSet_mem]
      tauto
    · rw [if_neg h1]
      rw [mapMem_cons, mapMem_cons, ih]
      have hne : k = k1 → a ≠ k1 := fun hk ha => h1 (hk.trans ha.symm)
      tauto

theorem lookupList_some_mem {m : List (String × List String)} {k : String} {s : List String}
    (h : lookupList m k = some s) : ∃ kv ∈ m, kv.1 = k ∧ kv.2 = s := by
  unfold lookupList at h
  cases hf : m.find? (fun kv => kv.1 == k) with
  | none =>
    rw [hf] at h
    exact Option.noConfusion h
  | some kv =>
    rw [hf] at h
    injection h with h
    have h1 := List.find?_some hf
    exact ⟨kv, List.mem_of_find?_eq_some hf, eq_of_beq h1, h⟩

theorem mem_foldl_insertKeys :
    ∀ (l : List (String × List String)) (acc : List String) (x : String),
      x ∈ l.foldl (fun acc kv => insertSet kv.1 acc) acc →
      x ∈ acc ∨ ∃ kv ∈ l, kv.1 = x := by
  intro l
  induction l with
  | nil => intro acc x hx; exact Or.inl hx
  | cons p ps ih =>
    intro acc x hx
    rcases ih (insertSet p.1 acc) x hx with hacc | ⟨kv, hkv, hk⟩
    · rcases (insertSet_mem p.1 acc x).mp hacc with rfl | hacc2
      · exact Or.inr ⟨p, List.mem_cons_self p ps, rfl⟩
      · exact Or.inl hacc2
    · exact Or.inr ⟨kv, List.mem_cons_of_mem p hkv, hk⟩

theorem sortedKeys_sub (m : List (String × List String)) (x : String)
    (hx : x ∈ sortedKeys m) : ∃ kv ∈ m, kv.1 = x := by
  rcases mem_foldl_insertKeys m [] x hx with h | h
  · exact absurd h (List.not_mem_nil x)
  · exact h

theorem foldl_preserve {α β : Type} (P : β → Prop) (g : β → α → β)
    (hg : ∀ b a, P b → P (g b a)) : ∀ (l : List α) (b), P b → P (l.foldl g b) := by
  intro l
  induction l with
  | nil => intro b hb; exact hb
  | cons x xs ih => intro b hb; exact ih (g b x) (hg b x hb)

/-! ### Never-Enables lemmas and the C10 theorem -/

theorem resolve_dep_mem_packages {pkg : Package} {dep : Dependency} {meta : Metadata}
    {p : Package} (h : resolve_dep pkg dep meta = some p) : p ∈ meta.packages := by
  unfold resolve_dep at h
  cases hm : meta.resolve with
  | some r =>
    simp only [hm] at h
    unfold resolve_dep_from_graph at h
    cases hn : r.nodes.find? (fun node => node.id == pkg.id) with
    | none =>
      simp only [hn] at h
      exact Option.noConfusion h
    | some node =>
      simp only [hn] at h
      cases hd : node.deps.find? (fun nd => nd.name == replaceDash dep.name) with
      | none =>
        simp only [hd] at h
        exact Option.noConfusion h
      | some nd =>
        simp only [hd] at h
        exact List.mem_of_find?_eq_some h
  | none =>
    simp only [hm] at h
    unfold resolve_dep_from_workspace at h
    cases hw : (workspace_packages meta).find? (fun work => work.name == dep.name) with
    | none =>
      simp only [hw] at h
      exact Option.noConfusion h
    | some w =>
      simp only [hw] at h
      exact List.mem_of_find?_eq_some h

theorem goodMap_nil (meta : Metadata) : GoodMap meta [] :=
  fun kv hkv => absurd hkv (List.not_mem_nil kv)

theorem goodMap_insertMap {meta : Metadata} {k v : String}
    (hk : IsPkgId meta k) (hv : IsPkgId meta v) :
    ∀ {m : List (String × List String)}, GoodMap meta m → GoodMap meta (insertMap k v m) := by
  intro m
  induction m with
  | nil =>
    intro _ kv hkv
    unfold insertMap at hkv
    rcases List.mem_singleton.mp hkv with rfl
    refine ⟨hk, ?_⟩
    intro x hx
    rcases List.mem_singleton.mp hx with rfl
    exact hv
  | cons p rest ih =>
    intro hm kv hkv
    obtain ⟨a, s⟩ := p
    unfold insertMap at hkv
    by_cases h1 : k = a
    · rw [if_pos h1] at hkv
      rcases List.mem_cons.mp hkv with rfl | htail
      · refine ⟨(hm (a, s) (List.mem_cons_self _ _)).1, ?_⟩
        intro x hx
        rcases (insertSet_mem v s x).mp hx with rfl | hxs
        · exact hv
        · exact (hm (a, s) (List.mem_cons_self _ _)).2 x hxs
      · exact hm kv (List.mem_cons_of_mem _ htail)
    · rw [if_neg h1] at hkv
      rcases List.mem_cons.mp hkv with rfl | htail
      · exact hm (a, s) (List.mem_cons_self _ _)
      · exact ih (fun kv2 hkv2 => hm kv2 (List.mem_cons_of_mem _ hkv2)) kv htail

theorem neDepStep_good {args : NEArgs} {meta : Metadata} {pkg : Package}
    {enabled : List String} (hpkg : pkg ∈ meta.packages) :
    ∀ {m : List (String × List String)}, GoodMap meta m → ∀ dep,
      GoodMap meta (neDepStep args meta pkg enabled m dep) := by
  intro m hm dep
  unfold neDepStep
  cases hr : resolve_dep pkg dep meta with
  | none => exact hm
  | some d =>
    show GoodMap meta (if enabled.contains (d.name ++ "/" ++ args.stays_disabled) then
      insertMap pkg.id d.id m else m)
    split
    · exact goodMap_insertMap ⟨pkg, hpkg, rfl⟩ ⟨d, resolve_dep_mem_packages hr, rfl⟩ hm
    · exact hm

theorem neOffendersPkg_good {args : NEArgs} {meta : Metadata} {pkg : Package}
    (hpkg : pkg ∈ meta.packages) {m : List (String × List String)} (hm : GoodMap meta m) :
    GoodMap meta (neOffendersPkg args meta m pkg) := by
  unfold neOffendersPkg
  cases lookupList pkg.features args.precondition with
  | none => exact hm
  | some enabled =>
    apply foldl_preserve (GoodMap meta) _ (fun b a hb => neDepStep_good hpkg hb a)
    split
    · exact goodMap_insertMap ⟨pkg, hpkg, rfl⟩ ⟨pkg, hpkg, rfl⟩ hm
    · exact hm

theorem neOffenders_good (args : NEArgs) (meta : Metadata) :
    GoodMap meta (neOffenders args meta) := by
  unfold neOffenders
  have hgen : ∀ (l : List Package), (∀ p ∈ l, p ∈ meta.packages) →
      ∀ m, GoodMap meta m → GoodMap meta (l.foldl (neOffendersPkg args meta) m) := by
    intro l
    induction l with
    | nil => intro _ m hm; exact hm
    | cons p ps ih =>
      intro hl m hm
      exact ih (fun q hq => hl q (List.mem_cons_of_mem p hq)) _
        (neOffendersPkg_good (hl p (List.mem_cons_self p ps)) hm)
  exact hgen meta.packages (fun p hp => hp) [] (goodMap_nil meta)

theorem lookupPkg_ok {meta : Metadata} {id : String} (h : IsPkgId meta id) :
    ∃ pkg, lookupPkg meta.packages id = .ok pkg := by
  obtain ⟨p, hp, rfl⟩ := h
  unfold lookupPkg
  cases hf : meta.packages.find? (fun pkg => pkg.id == p.id) with
  | some q => exact ⟨q, rfl⟩
  | none =>
    exfalso
    have h2 := List.find?_eq_none.mp hf p hp
    simp at h2

theorem neDepLines_ok {meta : Metadata} :
    ∀ {ds : List String}, (∀ d ∈ ds, IsPkgId meta d) →
      ∃ ls, neDepLines meta.packages ds = .ok ls := by
  intro ds
  induction ds with
  | nil => intro _; exact ⟨[], rfl⟩
  | cons d ds ih =>
    intro hds
    obtain ⟨krate, hk⟩ := lookupPkg_ok (hds d (List.mem_cons_self d ds))
    obtain ⟨ls, hls⟩ := ih (fun x hx => hds x (List.mem_cons_of_mem d hx))
    refine ⟨("      " ++ krate.name) :: ls, ?_⟩
    unfold neDepLines
    simp only [hk, hls]

theorem nePrint_ok {args : NEArgs} {meta : Metadata} {m : List (String × List String)}
    (hm : GoodMap meta m) :
    ∀ {ids : List String}, (∀ id ∈ ids, IsPkgId meta id) →
      ∃ ls, nePrint args meta.packages m ids = .ok ls := by
  intro ids
  induction ids with
  | nil => intro _; exact ⟨[], rfl⟩
  | cons id ids ih =>
    intro hids
    obtain ⟨krate, hk⟩ := lookupPkg_ok (hids id (List.mem_cons_self id ids))
    have hdeps : ∀ d ∈ (lookupList m id).getD [], IsPkgId meta d := by
      cases hl : lookupList m id with
      | none => intro d hd; simp at hd
      | some s =>
        intro d hd
        obtain ⟨kv, hkv, hk1, hk2⟩ := lookupList_some_mem hl
        refine (hm kv hkv).2 d ?_
        rw [hk2]
        simpa using hd
    obtain ⟨dls, hdls⟩ := neDepLines_ok hdeps
    obtain ⟨rest, hrest⟩ := ih (fun x hx => hids x (List.mem_cons_of_mem id hx))
    refine ⟨("crate \"" ++ krate.name ++ "\"\n  feature \"" ++
        args.precondition ++ "\"") ::
      ("    enables feature \"" ++ args.stays_disabled ++ "\" on dependencies:") ::
      dls ++ rest, ?_⟩
    unfold nePrint
    simp only [hk, hdls, hrest]

/-- **C10**: on every snapshot the Never-Enables command returns normally with
exit status 0, however many offenders it finds; offenders are communicated only
through the printed lines, never through the exit status (the command body
contains no `exit` call, and every id looked up during printing is a package id
of the snapshot, so the lookup panics are unreachable). -/
theorem never_enables_exits_zero (args : NEArgs) (meta : Metadata) :
    ∃ out, neverEnablesRun args meta = .ok (out, 0) := by
  have hgood := neOffenders_good args meta
  have hids : ∀ id ∈ sortedKeys (neOffenders args meta), IsPkgId meta id := by
    intro id hid
    obtain ⟨kv, hkv, hk⟩ := sortedKeys_sub _ id hid
    rw [← hk]
    exact (hgood kv hkv).1
  obtain ⟨lines, hlines⟩ := nePrint_ok hgood hids
  refine ⟨lines, ?_⟩
  unfold neverEnablesRun
  rw [hlines]

/-! ### Propagate-Feature: exit status (C4) -/

/-- **C4** (counterexample): on `metaPF` — package `a` fails to forward `std`
to its dependency `b` — the run counts an error-class finding and completes
without a panic, and the process exit status is 0, refuting the claimed
non-zero termination. -/
theorem propagate_feature_exit_counterexample :
    0 < (propagateRun argsPFnoFix metaPF).errors ∧
    (propagateRun argsPFnoFix metaPF).panic = none ∧
    propagateExitCode argsPFnoFix metaPF = 0 := by
  refine ⟨by decide, by decide, by decide⟩

/-- **C4** (amended): error-class findings never influence the exit status of a
Propagate-Feature run: whenever the run completes without a panic the process
exits 0 — findings are only counted and reported through the printed summary
line (which is present whenever anything was counted). Panics (metadata
integrity, unknown ids, the absent-fixer `unwrap`) remain the only source of a
non-zero status. -/
theorem propagate_feature_exit_independent_of_findings (args : PfArgs) (meta : Metadata)
    (h : (propagateRun args meta).panic = none) :
    propagateExitCode args meta = 0 ∧
    (0 < (propagateRun args meta).errors ∨ 0 < (propagateRun args meta).warnings →
      summaryLine (propagateRun args meta) ∈ (propagateRun args meta).out) := by
  constructor
  · unfold propagateExitCode
    rw [h]
    rfl
  · intro hcond
    unfold propagateRun at h hcond ⊢
    by_cases hempty : (toCheck args meta).isEmpty
    · rw [if_pos hempty] at h
      exact Option.noConfusion h
    · rw [if_neg hempty] at h hcond ⊢
      revert h hcond
      generalize (faultyCrates (computeFlags args meta)).foldl
        (processCrate args meta (computeFlags args meta)) pfInit = st0
      intro h hcond
      unfold pfFinalize at h hcond ⊢
      by_cases hp : st0.panic.isSome
      · rw [if_pos hp] at h
        rw [h] at hp
        simp at hp
      · rw [if_neg hp] at hcond ⊢
        by_cases hc : 0 < st0.errors ∨ 0 < st0.warnings
        · rw [if_pos hc]
          exact List.mem_append_right _ (List.mem_singleton.mpr rfl)
        · rw [if_neg hc] at hcond
          exact absurd hcond hc

/-- Witness for the amended C4 theorem on the concrete snapshot `metaPF`. -/
theorem propagate_feature_exit_independent_of_findings_witness :
    propagateExitCode argsPFnoFix metaPF = 0 ∧
    summaryLine (propagateRun argsPFnoFix metaPF) ∈ (propagateRun argsPFnoFix metaPF).out := by
  have h := propagate_feature_exit_independent_of_findings argsPFnoFix metaPF (by decide)
  exact ⟨h.1, h.2 (Or.inl (by decide))⟩

/-! ### Propagate-Feature: the maybe-unused flag (C6) -/

theorem checkDep_fst (meta : Metadata) (feature : String) (pkg : Package)
    (st : Bool × List (String × List String) × List (String × List String))
    (dep : Dependency) :
    (checkDep meta feature pkg st dep).1 = (st.1 || usedByDep meta feature pkg dep) := by
  cases hr : resolve_dep pkg dep meta with
  | none => simp [checkDep, usedByDep, hr]
  | some rp =>
    by_cases h2 : rp.features.any (fun kv => kv.1 == feature) = true
    · cases hl : lookupList pkg.features feature with
      | none => simp [checkDep, usedByDep, hr, h2, hl]
      | some enabled =>
        by_cases h3 : (rp.name ++ "/" ++ feature) ∈ enabled
        · simp [checkDep, usedByDep, hr, h2, hl, h3]
        · simp [checkDep, usedByDep, hr, h2, hl, h3]
    · simp [checkDep, usedByDep, hr, h2]

theorem foldl_checkDep_fst (meta : Metadata) (feature : String) (pkg : Package) :
    ∀ (deps : List Dependency) (st : Bool × List (String × List String) ×
      List (String × List String)),
      (deps.foldl (checkDep meta feature pkg) st).1 =
      (st.1 || deps.any (usedByDep meta feature pkg)) := by
  intro deps
  induction deps with
  | nil => intro st; simp
  | cons d ds ih =>
    intro st
    rw [List.foldl_cons, ih, checkDep_fst, List.any_cons, Bool.or_assoc]

theorem checkPkg_unused (meta : Metadata) (feature : String) (fl : Flags) (pkg : Package) :
    (checkPkg meta feature fl pkg).feature_maybe_unused =
    if (!pkg.dependencies.any (usedByDep meta feature pkg) &&
        pkg.features.any (fun kv => kv.1 == feature)) = true then
      insertSet pkg.id fl.feature_maybe_unused
    else fl.feature_maybe_unused := by
  simp only [checkPkg]
  rw [foldl_checkDep_fst]
  rw [Bool.false_or]

theorem foldl_checkPkg_unused_mem (meta : Metadata) (feature : String) :
    ∀ (l : List Package) (fl : Flags) (k : String),
      k ∈ (l.foldl (checkPkg meta feature) fl).feature_maybe_unused ↔
      k ∈ fl.feature_maybe_unused ∨
        ∃ pkg ∈ l, pkg.id = k ∧
          (!pkg.dependencies.any (usedByDep meta feature pkg) &&
            pkg.features.any (fun kv => kv.1 == feature)) = true := by
  intro l
  induction l with
  | nil => intro fl k; simp
  | cons p ps ih =>
    intro fl k
    rw [List.foldl_cons, ih]
    constructor
    · rintro (hin | ⟨pkg, hpkg, hid, hcond⟩)
      · rw [checkPkg_unused] at hin
        by_cases hc : (!p.dependencies.any (usedByDep meta feature p) &&
            p.features.any (fun kv => kv.1 == feature)) = true
        · rw [if_pos hc] at hin
          rcases (insertSet_mem p.id fl.feature_maybe_unused k).mp hin with rfl | hin2
          · exact Or.inr ⟨p, List.mem_cons_self p ps, rfl, hc⟩
          · exact Or.inl hin2
        · rw [if_neg hc] at hin
          exact Or.inl hin
      · exact Or.inr ⟨pkg, List.mem_cons_of_mem p hpkg, hid, hcond⟩
    · rintro (hin | ⟨pkg, hpkg, hid, hcond⟩)
      · left
        rw [checkPkg_unused]
        by_cases hc : (!p.dependencies.any (usedByDep meta feature p) &&
            p.features.any (fun kv => kv.1 == feature)) = true
        · rw [if_pos hc]
          exact (insertSet_mem _ _ _).mpr (Or.inr hin)
        · rw [if_neg hc]
          exact hin
      · rcases List.mem_cons.mp hpkg with rfl | hpkg2
        · left
          rw [checkPkg_unused, if_pos hcond]
          subst hid
          exact (insertSet_mem _ _ _).mpr (Or.inl rfl)
        · exact Or.inr ⟨pkg, hpkg2, hid, hcond⟩

/-- **C6** (counterexample): `pkgU` declares `std`, and its only dependency does
not resolve, so it forwards `std` to no resolved dependency whatsoever — by the
claim it must be flagged `feature_maybe_unused`, yet the scan marks the feature
used for the unresolved dependency and does not flag the package. -/
theorem propagate_feature_maybe_unused_counterexample :
    pkgU ∈ toCheck argsU metaU ∧
    (lookupList pkgU.features "std").isSome = true ∧
    pkgU.dependencies = [depMissing] ∧
    resolve_dep pkgU depMissing metaU = none ∧
    pkgU.id ∉ (computeFlags argsU metaU).feature_maybe_unused := by
  refine ⟨by decide, by decide, rfl, by decide, by decide⟩

/-- **C6** (amended): a checked package is flagged `feature_maybe_unused` iff it
declares the checked feature and *no dependency marks the feature used* — that
is, every dependency resolves, and no resolved dependency both declares the
feature and receives the forward `"<name>/<feature>"`. An unresolvable
dependency counts as using the feature and therefore suppresses the flag. -/
theorem propagate_feature_maybe_unused_characterization (args : PfArgs) (meta : Metadata)
    (k : String) :
    k ∈ (computeFlags args meta).feature_maybe_unused ↔
    ∃ pkg ∈ toCheck args meta, pkg.id = k ∧
      pkg.features.any (fun kv => kv.1 == args.feature) = true ∧
      pkg.dependencies.any (usedByDep meta args.feature pkg) = false := by
  unfold computeFlags
  rw [foldl_checkPkg_unused_mem]
  constructor
  · rintro (h | ⟨pkg, hpkg, hid, hcond⟩)
    · exact absurd h (List.not_mem_nil k)
    · rw [Bool.and_eq_true, Bool.not_eq_true'] at hcond
      exact ⟨pkg, hpkg, hid, hcond.2, hcond.1⟩
  · rintro ⟨pkg, hpkg, hid, hf, hu⟩
    refine Or.inr ⟨pkg, hpkg, hid, ?_⟩
    rw [Bool.and_eq_true, Bool.not_eq_true']
    exact ⟨hu, hf⟩

/-- Witness for the amended C6 theorem: in `metaPF` the package `b` declares
`std`, has no dependencies, and is flagged. -/
theorem propagate_feature_maybe_unused_characterization_witness :
    "ib" ∈ (computeFlags argsPFnoFix metaPF).feature_maybe_unused :=
  (propagate_feature_maybe_unused_characterization argsPFnoFix metaPF "ib").mpr
    ⟨pkgBstd, by decide, rfl, by decide, by decide⟩

/-! ### Propagate-Feature: flag-map lemmas (towards C2 and C9) -/

theorem foldl_mem_step {α β : Type} (P : β → Prop) (g : β → α → β)
    (hmono : ∀ b a, P b → P (g b a)) {x : α} (hstep : ∀ b, P (g b x)) :
    ∀ (l : List α), x ∈ l → ∀ b, P (l.foldl g b) := by
  intro l
  induction l with
  | nil => intro hx b; exact absurd hx (List.not_mem_nil x)
  | cons y ys ih =>
    intro hx b
    rcases List.mem_cons.mp hx with rfl | hx2
    · exact foldl_preserve P g hmono ys (g b x) (hstep b)
    · exact ih hx2 (g b y)

theorem lookupPkg_eq {meta : Metadata} (hu : (meta.packages.map Package.id).Nodup)
    {p : Package} (hp : p ∈ meta.packages) : lookupPkg meta.packages p.id = .ok p := by
  unfold lookupPkg
  cases hf : meta.packages.find? (fun pkg => pkg.id == p.id) with
  | none =>
    exfalso
    have h2 := List.find?_eq_none.mp hf p hp
    simp at h2
  | some q =>
    have hq := List.find?_some hf
    have hqm := List.mem_of_find?_eq_some hf
    have : q = p := List.inj_on_of_nodup_map hu hqm hp (eq_of_beq hq)
    rw [this]

theorem checkDep_pm_mono {meta : Metadata} {feature : String} {pkg : Package}
    {st : Bool × List (String × List String) × List (String × List String)}
    {dep : Dependency} {k v : String} (h : MapMem st.2.1 k v) :
    MapMem (checkDep meta feature pkg st dep).2.1 k v := by
  cases hr : resolve_dep pkg dep meta with
  | none => simpa [checkDep, hr] using h
  | some rp =>
    by_cases hf : rp.features.any (fun kv => kv.1 == feature) = true
    · cases hl : lookupList pkg.features feature with
      | none => simpa [checkDep, hr, hf, hl] using h
      | some enabled =>
        by_cases hc : (rp.name ++ "/" ++ feature) ∈ enabled
        · simpa [checkDep, hr, hf, hl, hc] using h
        · simp only [checkDep, hr, hf, hl]
          rw [if_pos trivial]
          have hc2 : ¬(enabled.contains (rp.name ++ "/" ++ feature) = true) := by
            simpa using hc
          rw [if_neg hc2]
          exact (insertMap_mapMem pkg.id rp.id st.2.1 k v).mpr (Or.inr h)
    · simpa [checkDep, hr, hf] using h

theorem checkDep_fm_mono {meta : Metadata} {feature : String} {pkg : Package}
    {st : Bool × List (String × List String) × List (String × List String)}
    {dep : Dependency} {k v : String} (h : MapMem st.2.2 k v) :
    MapMem (checkDep meta feature pkg st dep).2.2 k v := by
  cases hr : resolve_dep pkg dep meta with
  | none => simpa [checkDep, hr] using h
  | some rp =>
    by_cases hf : rp.features.any (fun kv => kv.1 == feature) = true
    · cases hl : lookupList pkg.features feature with
      | none =>
        simp only [checkDep, hr, hf, hl]
        simpa using (insertMap_mapMem pkg.id rp.id st.2.2 k v).mpr (Or.inr h)
      | some enabled =>
        by_cases hc : (rp.name ++ "/" ++ feature) ∈ enabled
        · simpa [checkDep, hr, hf, hl, hc] using h
        · simpa [checkDep, hr, hf, hl, hc] using h
    · simpa [checkDep, hr, hf] using h

theorem checkDep_pm_intro {meta : Metadata} {feature : String} {pkg : Package}
    {dep : Dependency} {rp : Package} {enabled : List String}
    (hr : resolve_dep pkg dep meta = some rp)
    (hf : rp.features.any (fun kv => kv.1 == feature) = true)
    (hl : lookupList pkg.features feature = some enabled)
    (hc : (rp.name ++ "/" ++ feature) ∉ enabled)
    (st : Bool × List (String × List String) × List (String × List String)) :
    MapMem (checkDep meta feature pkg st dep).2.1 pkg.id rp.id := by
  simp only [checkDep, hr, hf, hl]
  rw [if_pos trivial]
  have hc2 : ¬(enabled.contains (rp.name ++ "/" ++ feature) = true) := by
    simpa using hc
  rw [if_neg hc2]
  exact (insertMap_mapMem pkg.id rp.id st.2.1 pkg.id rp.id).mpr (Or.inl ⟨rfl, rfl⟩)

theorem checkDep_fm_intro {meta : Metadata} {feature : String} {pkg : Package}
    {dep : Dependency} {rp : Package}
    (hr : resolve_dep pkg dep meta = some rp)
    (hf : rp.features.any (fun kv => kv.1 == feature) = true)
    (hl : lookupList pkg.features feature = none)
    (st : Bool × List (String × List String) × List (String × List String)) :
    MapMem (checkDep meta feature pkg st dep).2.2 pkg.id rp.id := by
  simp only [checkDep, hr, hf, hl]
  simpa using (insertMap_mapMem pkg.id rp.id st.2.2 pkg.id rp.id).mpr (Or.inl ⟨rfl, rfl⟩)

theorem checkPkg_pm_mono {meta : Metadata} {feature : String} {fl : Flags} {pkg : Package}
    {k v : String} (h : MapMem fl.propagate_missing k v) :
    MapMem (checkPkg meta feature fl pkg).propagate_missing k v := by
  simp only [checkPkg]
  exact foldl_preserve (fun st => MapMem st.2.1 k v) _
    (fun b a hb => checkDep_pm_mono hb) pkg.dependencies
    (false, fl.propagate_missing, fl.feature_missing) h

theorem checkPkg_fm_mono {meta : Metadata} {feature : String} {fl : Flags} {pkg : Package}
    {k v : String} (h : MapMem fl.feature_missing k v) :
    MapMem (checkPkg meta feature fl pkg).feature_missing k v := by
  simp only [checkPkg]
  exact foldl_preserve (fun st => MapMem st.2.2 k v) _
    (fun b a hb => checkDep_fm_mono hb) pkg.dependencies
    (false, fl.propagate_missing, fl.feature_missing) h

theorem checkPkg_pm_intro {meta : Metadata} {feature : String} {pkg : Package}
    {dep : Dependency} {rp : Package} {enabled : List String}
    (hd : dep ∈ pkg.dependencies)
    (hr : resolve_dep pkg dep meta = some rp)
    (hf : rp.features.any (fun kv => kv.1 == feature) = true)
    (hl : lookupList pkg.features feature = some enabled)
    (hc : (rp.name ++ "/" ++ feature) ∉ enabled)
    (fl : Flags) :
    MapMem (checkPkg meta feature fl pkg).propagate_missing pkg.id rp.id := by
  simp only [checkPkg]
  exact foldl_mem_step (fun st => MapMem st.2.1 pkg.id rp.id) (checkDep meta feature pkg)
    (fun b a hb => checkDep_pm_mono hb)
    (fun b => checkDep_pm_intro hr hf hl hc b) pkg.dependencies hd
    (false, fl.propagate_missing, fl.feature_missing)

theorem checkPkg_fm_intro {meta : Metadata} {feature : String} {pkg : Package}
    {dep : Dependency} {rp : Package}
    (hd : dep ∈ pkg.dependencies)
    (hr : resolve_dep pkg dep meta = some rp)
    (hf : rp.features.any (fun kv => kv.1 == feature) = true)
    (hl : lookupList pkg.features feature = none)
    (fl : Flags) :
    MapMem (checkPkg meta feature fl pkg).feature_missing pkg.id rp.id := by
  simp only [checkPkg]
  exact foldl_mem_step (fun st => MapMem st.2.2 pkg.id rp.id) (checkDep meta feature pkg)
    (fun b a hb => checkDep_fm_mono hb)
    (fun b => checkDep_fm_intro hr hf hl b) pkg.dependencies hd
    (false, fl.propagate_missing, fl.feature_missing)

theorem computeFlags_pm_mem {args : PfArgs} {meta : Metadata} {pkg : Package}
    {dep : Dependency} {rp : Package} {enabled : List String}
    (hp : pkg ∈ toCheck args meta) (hd : dep ∈ pkg.dependencies)
    (hr : resolve_dep pkg dep meta = some rp)
    (hf : rp.features.any (fun kv => kv.1 == args.feature) = true)
    (hl : lookupList pkg.features args.feature = some enabled)
    (hc : (rp.name ++ "/" ++ args.feature) ∉ enabled) :
    MapMem (computeFlags args meta).propagate_missing pkg.id rp.id := by
  unfold computeFlags
  exact foldl_mem_step (fun fl => MapMem fl.propagate_missing pkg.id rp.id)
    (checkPkg meta args.feature)
    (fun b a hb => checkPkg_pm_mono hb)
    (fun b => checkPkg_pm_intro hd hr hf hl hc b) (toCheck args meta) hp ⟨[], [], []⟩

theorem computeFlags_fm_mem {args : PfArgs} {meta : Metadata} {pkg : Package}
    {dep : Dependency} {rp : Package}
    (hp : pkg ∈ toCheck args meta) (hd : dep ∈ pkg.dependencies)
    (hr : resolve_dep pkg dep meta = some rp)
    (hf : rp.features.any (fun kv => kv.1 == args.feature) = true)
    (hl : lookupList pkg.features args.feature = none) :
    MapMem (computeFlags args meta).feature_missing pkg.id rp.id := by
  unfold computeFlags
  exact foldl_mem_step (fun fl => MapMem fl.feature_missing pkg.id rp.id)
    (checkPkg meta args.feature)
    (fun b a hb => checkPkg_fm_mono hb)
    (fun b => checkPkg_fm_intro hd hr hf hl b) (toCheck args meta) hp ⟨[], [], []⟩

theorem mem_foldl_insertKeys_of_mem_acc {k : String} :
    ∀ (l : List (String × List String)) (acc : List String), k ∈ acc →
      k ∈ l.foldl (fun s kv => insertSet kv.1 s) acc :=
  fun l acc h =>
    foldl_preserve (fun s => k ∈ s) (fun s kv => insertSet kv.1 s)
      (fun b a hb => (insertSet_mem a.1 b k).mpr (Or.inr hb)) l acc h

theorem mem_foldl_insertKeys_intro {k : String} :
    ∀ (l : List (String × List String)), (∃ kv ∈ l, kv.1 = k) →
      ∀ (acc : List String), k ∈ l.foldl (fun s kv => insertSet kv.1 s) acc := by
  intro l
  induction l with
  | nil =>
    rintro ⟨kv, hkv, _⟩
    exact absurd hkv (List.not_mem_nil kv)
  | cons p ps ih =>
    rintro ⟨kv, hkv, hk⟩ acc
    rcases List.mem_cons.mp hkv with rfl | htail
    · rw [List.foldl_cons]
      exact mem_foldl_insertKeys_of_mem_acc ps _
        ((insertSet_mem kv.1 acc k).mpr (Or.inl hk.symm))
    · rw [List.foldl_cons]
      exact ih ⟨kv, htail, hk⟩ _

theorem mem_foldl_insertElems_of_mem_acc {k : String} :
    ∀ (l : List String) (acc : List String), k ∈ acc →
      k ∈ l.foldl (fun s x => insertSet x s) acc :=
  fun l acc h =>
    foldl_preserve (fun s => k ∈ s) (fun s x => insertSet x s)
      (fun b a hb => (insertSet_mem a b k).mpr (Or.inr hb)) l acc h

theorem faultyCrates_of_pm {fl : Flags} {k v : String}
    (h : MapMem fl.propagate_missing k v) : k ∈ faultyCrates fl := by
  obtain ⟨s, hs, _⟩ := h
  obtain ⟨kv, hkv, hk1, _⟩ := lookupList_some_mem hs
  unfold faultyCrates
  exact mem_foldl_insertElems_of_mem_acc _ _
    (mem_foldl_insertKeys_of_mem_acc _ _
      (mem_foldl_insertKeys_intro fl.propagate_missing ⟨kv, hkv, hk1⟩ []))

theorem add_to_feature_path (f : AutoFixer) (a b : String) :
    (f.add_to_feature a b).manifest_path = f.manifest_path := by
  unfold AutoFixer.add_to_feature
  split
  · rfl
  · rfl

theorem add_to_feature_mem_self (f : AutoFixer) (a b : String) :
    (a, b) ∈ (f.add_to_feature a b).edits := by
  unfold AutoFixer.add_to_feature
  split
  · assumption
  · exact List.mem_append_right _ (List.mem_singleton.mpr rfl)

theorem add_to_feature_mem_mono (f : AutoFixer) (a b : String)
    {e : String × String} (h : e ∈ f.edits) : e ∈ (f.add_to_feature a b).edits := by
  unfold AutoFixer.add_to_feature
  split
  · exact h
  · exact List.mem_append_left _ h

theorem applyFixes_some {args : PfArgs} {meta : Metadata} {feature : String} :
    ∀ {deps : List String} {fixer : Option AutoFixer} {fixes : Nat}
      {fixer1 : Option AutoFixer} {fixes1 : Nat},
      applyFixes args meta feature deps fixer fixes = .ok (fixer1, fixes1) →
      (∀ f, fixer = some f → ∃ f1, fixer1 = some f1 ∧
        f1.manifest_path = f.manifest_path ∧ ∀ e ∈ f.edits, e ∈ f1.edits) ∧
      (fixer = none → fixer1 = none) ∧ fixes ≤ fixes1 := by
  intro deps
  induction deps with
  | nil =>
    intro fixer fixes fixer1 fixes1 h
    unfold applyFixes at h
    injection h with h
    have h1 : fixer = fixer1 := congrArg Prod.fst h
    have h2 : fixes = fixes1 := congrArg Prod.snd h
    subst h1
    subst h2
    exact ⟨fun f hf => ⟨f, hf, rfl, fun e he => he⟩, fun hn => hn, Nat.le_refl _⟩
  | cons d ds ih =>
    intro fixer fixes fixer1 fixes1 h
    unfold applyFixes at h
    cases hlk : lookupPkg meta.packages d with
    | error p =>
      simp only [hlk] at h
      exact Except.noConfusion h
    | ok depPkg =>
      simp only [hlk] at h
      by_cases hfil : args.fix_dependency.elim true (fun x => x == depPkg.name) = true
      · rw [if_pos hfil] at h
        cases hfx : fixer with
        | some f =>
          rw [hfx] at h
          obtain ⟨hsome, hnone, hle⟩ := ih h
          refine ⟨?_, ?_, ?_⟩
          · intro f0 hf0
            injection hf0 with hf0
            subst hf0
            obtain ⟨f1, hf1, hpath, hmono⟩ := hsome _ rfl
            exact ⟨f1, hf1, hpath.trans (add_to_feature_path f feature _),
              fun e he => hmono e (add_to_feature_mem_mono f feature _ he)⟩
          · intro hn
            exact Option.noConfusion hn
          · exact Nat.le_trans (Nat.le_succ fixes) hle
        | none =>
          rw [hfx] at h
          obtain ⟨hsome, hnone, hle⟩ := ih h
          refine ⟨?_, fun _ => hnone rfl, hle⟩
          intro f0 hf0
          exact Option.noConfusion hf0
      · rw [if_neg hfil] at h
        exact ih h

theorem applyFixes_adds {args : PfArgs} {meta : Metadata} {feature : String}
    (hu : (meta.packages.map Package.id).Nodup) {rp : Package}
    (hrp : rp ∈ meta.packages)
    (hfd : args.fix_dependency.elim true (fun d => d == rp.name) = true) :
    ∀ {deps : List String} {f : AutoFixer} {fixes : Nat}
      {fixer1 : Option AutoFixer} {fixes1 : Nat},
      rp.id ∈ deps →
      applyFixes args meta feature deps (some f) fixes = .ok (fixer1, fixes1) →
      ∃ f1, fixer1 = some f1 ∧ (feature, rp.name ++ "/" ++ feature) ∈ f1.edits ∧
        0 < fixes1 := by
  intro deps
  induction deps with
  | nil =>
    intro f fixes fixer1 fixes1 hmem _
    exact absurd hmem (List.not_mem_nil rp.id)
  | cons d ds ih =>
    intro f fixes fixer1 fixes1 hmem h
    unfold applyFixes at h
    rcases List.mem_cons.mp hmem with rfl | htail
    · rw [lookupPkg_eq hu hrp] at h
      simp only [] at h
      rw [if_pos hfd] at h
      obtain ⟨hsome, _, hle⟩ := applyFixes_some h
      obtain ⟨f1, hf1, hpath, hmono⟩ := hsome _ rfl
      refine ⟨f1, hf1, hmono _ (add_to_feature_mem_self f feature _), ?_⟩
      exact Nat.lt_of_lt_of_le (Nat.succ_pos fixes) hle
    · cases hlk : lookupPkg meta.packages d with
      | error p =>
        simp only [hlk] at h
        exact Except.noConfusion h
      | ok depPkg =>
        simp only [hlk] at h
        by_cases hfil : args.fix_dependency.elim true (fun x => x == depPkg.name) = true
        · rw [if_pos hfil] at h
          exact ih htail h
        · rw [if_neg hfil] at h
          exact ih htail h

/-! ### Propagate-Feature: crate-loop lemmas -/

theorem processCrateFm_writes (meta : Metadata) (fl : Flags) (krate : Package) (st : PfSt) :
    (processCrateFm meta fl krate st).writes = st.writes := by
  unfold processCrateFm
  split
  · rfl
  · split
    · rfl
    · rfl

theorem processCrateFm_fixes (meta : Metadata) (fl : Flags) (krate : Package) (st : PfSt) :
    (processCrateFm meta fl krate st).fixes = st.fixes := by
  unfold processCrateFm
  split
  · rfl
  · split
    · rfl
    · rfl

theorem processCrateFm_out_mono (meta : Metadata) (fl : Flags) (krate : Package) (st : PfSt)
    {o : String} (h : o ∈ st.out) : o ∈ (processCrateFm meta fl krate st).out := by
  unfold processCrateFm
  split
  · exact h
  · split
    · exact h
    · exact List.mem_append_left _ h

theorem processCrateFm_panic_back (meta : Metadata) (fl : Flags) (krate : Package) (st : PfSt)
    (h : (processCrateFm meta fl krate st).panic = none) : st.panic = none := by
  unfold processCrateFm at h
  cases hl : lookupList fl.feature_missing krate.id with
  | none => simpa only [hl] using h
  | some deps =>
    simp only [hl] at h
    cases hn : depNames meta.packages deps with
    | error p =>
      simp only [hn] at h
      exact Option.noConfusion h
    | ok names => simpa only [hn] using h

theorem processCratePm_writes (args : PfArgs) (meta : Metadata) (fl : Flags) (krate : Package)
    (st : PfSt) (fixer : Option AutoFixer) :
    (processCratePm args meta fl krate st fixer).1.writes = st.writes := by
  unfold processCratePm
  by_cases hp : st.panic.isSome
  · rw [if_pos hp]
  · rw [if_neg hp]
    split
    · rfl
    · split
      · rfl
      · split
        · split
          · rfl
          · rfl
        · rfl

theorem processCratePm_out_mono (args : PfArgs) (meta : Metadata) (fl : Flags)
    (krate : Package) (st : PfSt) (fixer : Option AutoFixer)
    {o : String} (h : o ∈ st.out) :
    o ∈ (processCratePm args meta fl krate st fixer).1.out := by
  unfold processCratePm
  by_cases hp : st.panic.isSome
  · rw [if_pos hp]
    exact h
  · rw [if_neg hp]
    split
    · exact h
    · split
      · exact h
      · split
        · split
          · exact List.mem_append_left _ h
          · exact List.mem_append_left _ h
        · exact List.mem_append_left _ h

theorem processCratePm_panic_back (args : PfArgs) (meta : Metadata) (fl : Flags)
    (krate : Package) (st : PfSt) (fixer : Option AutoFixer)
    (h : (processCratePm args meta fl krate st fixer).1.panic = none) :
    st.panic = none := by
  unfold processCratePm at h
  by_cases hp : st.panic.isSome
  · rw [if_pos hp] at h
    rw [h] at hp
    simp at hp
  · exact Option.not_isSome_iff_eq_none.mp hp

theorem processCratePm_fixer (args : PfArgs) (meta : Metadata) (fl : Flags)
    (krate : Package) (st : PfSt) (fixer : Option AutoFixer) :
    (processCratePm args meta fl krate st fixer).2 = fixer ∨
    ∃ f f1, fixer = some f ∧ (processCratePm args meta fl krate st fixer).2 = some f1 ∧
      f1.manifest_path = f.manifest_path := by
  unfold processCratePm
  by_cases hp : st.panic.isSome
  · rw [if_pos hp]
    exact Or.inl rfl
  · rw [if_neg hp]
    split
    · exact Or.inl rfl
    · split
      · exact Or.inl rfl
      · split
        · split
          · exact Or.inl rfl
          · next fixer1 fixes1 ha =>
            obtain ⟨hsome, hnone, _⟩ := applyFixes_some ha
            cases hfx : fixer with
            | none => exact Or.inl (hnone hfx)
            | some f =>
              obtain ⟨f1, hf1, hpath, _⟩ := hsome f hfx
              exact Or.inr ⟨f, f1, rfl, hf1, hpath⟩
        · exact Or.inl rfl

theorem processCrateSave_panic_back (st : PfSt) (fixer : Option AutoFixer)
    (h : (processCrateSave st fixer).panic = none) : st.panic = none := by
  unfold processCrateSave at h
  by_cases hp : st.panic.isSome
  · rw [if_pos hp] at h
    rw [h] at hp
    simp at hp
  · exact Option.not_isSome_iff_eq_none.mp hp

theorem processCrateSave_out (st : PfSt) (fixer : Option AutoFixer) :
    (processCrateSave st fixer).out = st.out := by
  unfold processCrateSave
  by_cases hp : st.panic.isSome
  · rw [if_pos hp]
  · rw [if_neg hp]
    by_cases hf : 0 < st.fixes
    · rw [if_pos hf]
      cases fixer with
      | some f => rfl
      | none => rfl
    · rw [if_neg hf]

theorem processCrateSave_writes (st : PfSt) (fixer : Option AutoFixer) :
    (processCrateSave st fixer).writes = st.writes ∨
    ∃ f, fixer = some f ∧
      (processCrateSave st fixer).writes =
        st.writes ++ [⟨f.manifest_path, f.edits⟩] := by
  unfold processCrateSave
  by_cases hp : st.panic.isSome
  · rw [if_pos hp]
    exact Or.inl rfl
  · rw [if_neg hp]
    by_cases hf : 0 < st.fixes
    · rw [if_pos hf]
      cases fixer with
      | some f => exact Or.inr ⟨f, rfl, rfl⟩
      | none => exact Or.inl rfl
    · rw [if_neg hf]
      exact Or.inl rfl

theorem processCrateSave_emits (st : PfSt) (f : AutoFixer)
    (hp : st.panic = none) (hf : 0 < st.fixes) :
    processCrateSave st (some f) =
      { st with writes := st.writes ++ [⟨f.manifest_path, f.edits⟩] } := by
  unfold processCrateSave
  rw [if_neg (by simp [hp]), if_pos hf]

theorem processCratePm_fix {args : PfArgs} {meta : Metadata} {fl : Flags} {krate : Package}
    {st : PfSt} {fixer : Option AutoFixer}
    (hp : st.panic = none)
    {deps : List String} (hdeps : lookupList fl.propagate_missing krate.id = some deps)
    (hfix : args.fix = true)
    (hfp : args.fix_package.elim true (fun p => p == krate.name) = true)
    (hres : (processCratePm args meta fl krate st fixer).1.panic = none)
    (hu : (meta.packages.map Package.id).Nodup) {rp : Package}
    (hrp : rp ∈ meta.packages) (hmem : rp.id ∈ deps)
    (hfd : args.fix_dependency.elim true (fun d => d == rp.name) = true)
    {f : AutoFixer} (hf : fixer = some f) :
    ∃ f1, (processCratePm args meta fl krate st fixer).2 = some f1 ∧
      (args.feature, rp.name ++ "/" ++ args.feature) ∈ f1.edits ∧
      f1.manifest_path = f.manifest_path ∧
      0 < (processCratePm args meta fl krate st fixer).1.fixes := by
  have hcond : (args.fix && args.fix_package.elim true (fun p => p == krate.name)) = true := by
    simp [hfix, hfp]
  unfold processCratePm at hres ⊢
  rw [if_neg (by simp [hp])] at hres ⊢
  simp only [hdeps] at hres ⊢
  cases hn : depNames meta.packages deps with
  | error p =>
    simp only [hn] at hres
    exact Option.noConfusion hres
  | ok names =>
    simp only [hn] at hres ⊢
    rw [if_pos hcond] at hres ⊢
    cases ha : applyFixes args meta args.feature deps fixer (pmReport st names).fixes with
    | error p =>
      simp only [ha] at hres
      exact Option.noConfusion hres
    | ok pr =>
      obtain ⟨fixer1, fixes1⟩ := pr
      simp only [ha] at hres ⊢
      subst hf
      obtain ⟨f1, hf1, hedit, hpos⟩ := applyFixes_adds hu hrp hfd hmem ha
      obtain ⟨hsome, _, _⟩ := applyFixes_some ha
      obtain ⟨f1x, hf1x, hpathx, _⟩ := hsome f rfl
      rw [hf1] at hf1x
      injection hf1x with hf1x
      refine ⟨f1, hf1, hedit, ?_, hpos⟩
      rw [hf1x]
      exact hpathx

theorem processCrateReports_writes (args : PfArgs) (meta : Metadata) (fl : Flags)
    (krate : Package) (st : PfSt) :
    (processCrateReports args meta fl krate st).1.writes = st.writes := by
  unfold processCrateReports
  rw [processCratePm_writes, processCrateFm_writes]

theorem processCrateReports_fixer_path (args : PfArgs) (meta : Metadata) (fl : Flags)
    (krate : Package) (st : PfSt) {f : AutoFixer}
    (h : (processCrateReports args meta fl krate st).2 = some f) :
    f.manifest_path = krate.manifest_path ∧
    (allowedDir args).isPrefixOf krate.manifest_path = true := by
  unfold processCrateReports at h
  rcases processCratePm_fixer args meta fl krate
      (processCrateFm meta fl krate { st with out := st.out ++ [crateHeader args krate] })
      (crateFixer0 args krate) with h1 | ⟨g, g1, hg, hg1, hpath⟩
  · rw [h1] at h
    unfold crateFixer0 at h
    by_cases hin : (allowedDir args).isPrefixOf krate.manifest_path = true
    · rw [if_pos hin] at h
      injection h with h
      exact ⟨by rw [← h], hin⟩
    · rw [if_neg hin] at h
      exact Option.noConfusion h
  · rw [hg1] at h
    injection h with h
    unfold crateFixer0 at hg
    by_cases hin : (allowedDir args).isPrefixOf krate.manifest_path = true
    · rw [if_pos hin] at hg
      injection hg with hg
      refine ⟨?_, hin⟩
      rw [← h, hpath, ← hg]
    · rw [if_neg hin] at hg
      exact Option.noConfusion hg

theorem processCrateBody_panic_back (args : PfArgs) (meta : Metadata) (fl : Flags)
    (krate : Package) (st : PfSt)
    (h : (processCrateBody args meta fl krate st).panic = none) : st.panic = none := by
  unfold processCrateBody at h
  have h1 := processCrateSave_panic_back _ _ h
  unfold processCrateReports at h1
  have h2 := processCratePm_panic_back _ _ _ _ _ _ h1
  have h3 := processCrateFm_panic_back _ _ _ _ h2
  exact h3

theorem processCrateBody_writes_mono (args : PfArgs) (meta : Metadata) (fl : Flags)
    (krate : Package) (st : PfSt) {w : Wr} (h : w ∈ st.writes) :
    w ∈ (processCrateBody args meta fl krate st).writes := by
  unfold processCrateBody
  rcases processCrateSave_writes (processCrateReports args meta fl krate st).1
      (processCrateReports args meta fl krate st).2 with hw | ⟨f, _, hw⟩
  · rw [hw, processCrateReports_writes]
    exact h
  · rw [hw, processCrateReports_writes]
    exact List.mem_append_left _ h

theorem processCrateBody_out_mono (args : PfArgs) (meta : Metadata) (fl : Flags)
    (krate : Package) (st : PfSt) {o : String} (h : o ∈ st.out) :
    o ∈ (processCrateBody args meta fl krate st).out := by
  unfold processCrateBody
  rw [processCrateSave_out]
  unfold processCrateReports
  apply processCratePm_out_mono
  apply processCrateFm_out_mono
  exact List.mem_append_left _ h

theorem processCrateBody_header (args : PfArgs) (meta : Metadata) (fl : Flags)
    (krate : Package) (st : PfSt) :
    crateHeader args krate ∈ (processCrateBody args meta fl krate st).out := by
  unfold processCrateBody
  rw [processCrateSave_out]
  unfold processCrateReports
  apply processCratePm_out_mono
  apply processCrateFm_out_mono
  exact List.mem_append_right _ (List.mem_singleton.mpr rfl)

theorem processCrateBody_writes_good (args : PfArgs) (meta : Metadata) (fl : Flags)
    (krate : Package) (st : PfSt) :
    ∀ w ∈ (processCrateBody args meta fl krate st).writes,
      w ∈ st.writes ∨ (allowedDir args).isPrefixOf w.path = true := by
  intro w hw
  unfold processCrateBody at hw
  rcases processCrateSave_writes (processCrateReports args meta fl krate st).1
      (processCrateReports args meta fl krate st).2 with hweq | ⟨f, hf, hweq⟩
  · rw [hweq, processCrateReports_writes] at hw
    exact Or.inl hw
  · rw [hweq, processCrateReports_writes] at hw
    rcases List.mem_append.mp hw with h1 | h1
    · exact Or.inl h1
    · rcases List.mem_singleton.mp h1 with rfl
      obtain ⟨hpath, hin⟩ := processCrateReports_fixer_path args meta fl krate st hf
      right
      show (allowedDir args).isPrefixOf f.manifest_path = true
      rw [hpath]
      exact hin

theorem processCrate_panic_back (args : PfArgs) (meta : Metadata) (fl : Flags)
    (st : PfSt) (kid : String)
    (h : (processCrate args meta fl st kid).panic = none) : st.panic = none := by
  unfold processCrate at h
  by_cases hp : st.panic.isSome
  · rw [if_pos hp] at h
    rw [h] at hp
    simp at hp
  · exact Option.not_isSome_iff_eq_none.mp hp

theorem processCrate_writes_mono (args : PfArgs) (meta : Metadata) (fl : Flags)
    (st : PfSt) (kid : String) {w : Wr} (h : w ∈ st.writes) :
    w ∈ (processCrate args meta fl st kid).writes := by
  unfold processCrate
  by_cases hp : st.panic.isSome
  · rw [if_pos hp]
    exact h
  · rw [if_neg hp]
    split
    · exact h
    · exact processCrateBody_writes_mono _ _ _ _ _ h

theorem processCrate_out_mono (args : PfArgs) (meta : Metadata) (fl : Flags)
    (st : PfSt) (kid : String) {o : String} (h : o ∈ st.out) :
    o ∈ (processCrate args meta fl st kid).out := by
  unfold processCrate
  by_cases hp : st.panic.isSome
  · rw [if_pos hp]
    exact h
  · rw [if_neg hp]
    split
    · exact h
    · exact processCrateBody_out_mono _ _ _ _ _ h

theorem processCrate_writes_good (args : PfArgs) (meta : Metadata) (fl : Flags)
    (st : PfSt) (kid : String) :
    ∀ w ∈ (processCrate args meta fl st kid).writes,
      w ∈ st.writes ∨ (allowedDir args).isPrefixOf w.path = true := by
  intro w hw
  unfold processCrate at hw
  by_cases hp : st.panic.isSome
  · rw [if_pos hp] at hw
    exact Or.inl hw
  · rw [if_neg hp] at hw
    split at hw
    · exact Or.inl hw
    · exact processCrateBody_writes_good _ _ _ _ _ w hw

theorem processCrate_header_found (args : PfArgs) (meta : Metadata) (fl : Flags)
    (st : PfSt) (kid : String)
    (hres : (processCrate args meta fl st kid).panic = none) :
    ∃ krate, lookupPkg meta.packages kid = .ok krate ∧
      crateHeader args krate ∈ (processCrate args meta fl st kid).out := by
  have hp := processCrate_panic_back args meta fl st kid hres
  unfold processCrate at hres ⊢
  rw [if_neg (by simp [hp])] at hres ⊢
  cases hlk : lookupPkg meta.packages kid with
  | error p =>
    simp only [hlk] at hres
    exact Option.noConfusion hres
  | ok krate =>
    simp only [hlk]
    exact ⟨krate, rfl, processCrateBody_header args meta fl krate st⟩

theorem processCrate_emits {args : PfArgs} {meta : Metadata} {fl : Flags}
    {st : PfSt} {pkg : Package}
    (hp : st.panic = none)
    (hres : (processCrate args meta fl st pkg.id).panic = none)
    (hu : (meta.packages.map Package.id).Nodup) (hpkg : pkg ∈ meta.packages)
    (hin : (allowedDir args).isPrefixOf pkg.manifest_path = true)
    {deps : List String} (hdeps : lookupList fl.propagate_missing pkg.id = some deps)
    (hfix : args.fix = true)
    (hfp : args.fix_package.elim true (fun p => p == pkg.name) = true)
    {rp : Package} (hrp : rp ∈ meta.packages) (hmem : rp.id ∈ deps)
    (hfd : args.fix_dependency.elim true (fun d => d == rp.name) = true) :
    ∃ w ∈ (processCrate args meta fl st pkg.id).writes,
      w.path = pkg.manifest_path ∧
      (args.feature, rp.name ++ "/" ++ args.feature) ∈ w.edits := by
  unfold processCrate at hres ⊢
  rw [if_neg (by simp [hp])] at hres ⊢
  simp only [lookupPkg_eq hu hpkg] at hres ⊢
  unfold processCrateBody processCrateReports at hres ⊢
  have hpm_panic := processCrateSave_panic_back _ _ hres
  have hfm_panic := processCratePm_panic_back _ _ _ _ _ _ hpm_panic
  have hfx0 : crateFixer0 args pkg = some ⟨pkg.manifest_path, []⟩ := by
    unfold crateFixer0
    rw [if_pos hin]
  obtain ⟨f1, hf1, hedit, hpath, hpos⟩ :=
    processCratePm_fix hfm_panic hdeps hfix hfp hpm_panic hu hrp hmem hfd hfx0
  rw [hf1, processCrateSave_emits _ f1 hpm_panic hpos]
  refine ⟨⟨f1.manifest_path, f1.edits⟩,
    List.mem_append_right _ (List.mem_singleton.mpr rfl), ?_, hedit⟩
  show f1.manifest_path = pkg.manifest_path
  rw [hpath]

theorem foldl_processCrate_panic_back (args : PfArgs) (meta : Metadata) (fl : Flags) :
    ∀ (l : List String) (st : PfSt),
      (l.foldl (processCrate args meta fl) st).panic = none → st.panic = none := by
  intro l
  induction l with
  | nil => intro st h; exact h
  | cons x xs ih =>
    intro st h
    exact processCrate_panic_back args meta fl st x (ih _ h)

theorem foldl_processCrate_writes_mono (args : PfArgs) (meta : Metadata) (fl : Flags)
    {w : Wr} : ∀ (l : List String) (st : PfSt), w ∈ st.writes →
      w ∈ (l.foldl (processCrate args meta fl) st).writes := by
  exact foldl_preserve (fun st => w ∈ st.writes) (processCrate args meta fl)
    (fun st k h => processCrate_writes_mono args meta fl st k h)

theorem foldl_processCrate_out_mono (args : PfArgs) (meta : Metadata) (fl : Flags)
    {o : String} : ∀ (l : List String) (st : PfSt), o ∈ st.out →
      o ∈ (l.foldl (processCrate args meta fl) st).out := by
  exact foldl_preserve (fun st => o ∈ st.out) (processCrate args meta fl)
    (fun st k h => processCrate_out_mono args meta fl st k h)

theorem foldl_processCrate_writes_good (args : PfArgs) (meta : Metadata) (fl : Flags) :
    ∀ (l : List String) (st : PfSt),
      (∀ w ∈ st.writes, (allowedDir args).isPrefixOf w.path = true) →
      ∀ w ∈ (l.foldl (processCrate args meta fl) st).writes,
        (allowedDir args).isPrefixOf w.path = true := by
  intro l st hst
  refine foldl_preserve
    (fun st => ∀ w ∈ st.writes, (allowedDir args).isPrefixOf w.path = true)
    (processCrate args meta fl) ?_ l st hst
  intro st1 k h1 w hw
  rcases processCrate_writes_good args meta fl st1 k w hw with h2 | h2
  · exact h1 w h2
  · exact h2

theorem foldl_processCrate_reach (args : PfArgs) (meta : Metadata) (fl : Flags) :
    ∀ (l : List String) (st : PfSt),
      (l.foldl (processCrate args meta fl) st).panic = none →
      ∀ k ∈ l, ∃ st1, st1.panic = none ∧
        (processCrate args meta fl st1 k).panic = none ∧
        (∀ w ∈ (processCrate args meta fl st1 k).writes,
          w ∈ (l.foldl (processCrate args meta fl) st).writes) ∧
        (∀ o ∈ (processCrate args meta fl st1 k).out,
          o ∈ (l.foldl (processCrate args meta fl) st).out) := by
  intro l
  induction l with
  | nil => intro st _ k hk; exact absurd hk (List.not_mem_nil k)
  | cons x xs ih =>
    intro st hfin k hk
    rw [List.foldl_cons] at hfin
    rcases List.mem_cons.mp hk with rfl | htail
    · have hstep := foldl_processCrate_panic_back args meta fl xs _ hfin
      refine ⟨st, processCrate_panic_back args meta fl st k hstep, hstep, ?_, ?_⟩
      · intro w hw
        rw [List.foldl_cons]
        exact foldl_processCrate_writes_mono args meta fl xs _ hw
      · intro o ho
        rw [List.foldl_cons]
        exact foldl_processCrate_out_mono args meta fl xs _ ho
    · obtain ⟨st1, h1, h2, h3, h4⟩ := ih (processCrate args meta fl st x) hfin k htail
      refine ⟨st1, h1, h2, ?_, ?_⟩
      · intro w hw
        rw [List.foldl_cons]
        exact h3 w hw
      · intro o ho
        rw [List.foldl_cons]
        exact h4 o ho

theorem pfFinalize_writes (st : PfSt) : (pfFinalize st).writes = st.writes := by
  unfold pfFinalize
  split
  · rfl
  · split
    · rfl
    · rfl

theorem pfFinalize_panic (st : PfSt) : (pfFinalize st).panic = st.panic := by
  unfold pfFinalize
  split
  · rfl
  · split
    · rfl
    · rfl

theorem pfFinalize_out_mono (st : PfSt) {o : String} (h : o ∈ st.out) :
    o ∈ (pfFinalize st).out := by
  unfold pfFinalize
  split
  · exact h
  · split
    · exact List.mem_append_left _ h
    · exact h

theorem toCheck_sub {args : PfArgs} {meta : Metadata} {pkg : Package}
    (h : pkg ∈ toCheck args meta) : pkg ∈ meta.packages := by
  unfold toCheck at h
  split at h
  · exact h
  · exact List.mem_of_mem_filter h

/-- **C2**: for a checked package `pkg` with a dependency resolving to `rp`
that declares the feature: when `pkg` lacks the feature it is flagged
`feature_missing` for `rp`; when `pkg` declares it without forwarding
`"<rp.name>/<feature>"` it is flagged `propagate_missing` for `rp`, and — with
fixing enabled, the package/dependency filters matching, the manifest inside
the allowed directory, and the run completing without a panic — the run's
writes contain a write to `pkg`'s manifest appending `"<rp.name>/<feature>"`
to `pkg`'s declaration of the feature. -/
theorem propagate_feature_flags_and_fix (args : PfArgs) (meta : Metadata)
    (hu : (meta.packages.map Package.id).Nodup)
    (pkg : Package) (hp : pkg ∈ toCheck args meta)
    (dep : Dependency) (hd : dep ∈ pkg.dependencies)
    (rp : Package) (hr : resolve_dep pkg dep meta = some rp)
    (hf : rp.features.any (fun kv => kv.1 == args.feature) = true) :
    (lookupList pkg.features args.feature = none →
      MapMem (computeFlags args meta).feature_missing pkg.id rp.id) ∧
    (∀ enabled, lookupList pkg.features args.feature = some enabled →
      (rp.name ++ "/" ++ args.feature) ∉ enabled →
      MapMem (computeFlags args meta).propagate_missing pkg.id rp.id ∧
      (args.fix = true →
        args.fix_package.elim true (fun p => p == pkg.name) = true →
        args.fix_dependency.elim true (fun d => d == rp.name) = true →
        (allowedDir args).isPrefixOf pkg.manifest_path = true →
        (propagateRun args meta).panic = none →
        ∃ w ∈ (propagateRun args meta).writes,
          w.path = pkg.manifest_path ∧
          (args.feature, rp.name ++ "/" ++ args.feature) ∈ w.edits)) := by
  constructor
  · intro hl
    exact computeFlags_fm_mem hp hd hr hf hl
  · intro enabled hl hc
    have hpm := computeFlags_pm_mem hp hd hr hf hl hc
    refine ⟨hpm, ?_⟩
    intro hfix hfp hfd hin hrun
    obtain ⟨deps, hdeps, hmem⟩ := hpm
    have hk : pkg.id ∈ faultyCrates (computeFlags args meta) :=
      faultyCrates_of_pm ⟨deps, hdeps, hmem⟩
    unfold propagateRun at hrun ⊢
    by_cases he : (toCheck args meta).isEmpty
    · rw [if_pos he] at hrun
      exact Option.noConfusion hrun
    · rw [if_neg he] at hrun ⊢
      rw [pfFinalize_panic] at hrun
      obtain ⟨st1, h1, h2, h3, _⟩ :=
        foldl_processCrate_reach args meta (computeFlags args meta) _ pfInit hrun pkg.id hk
      obtain ⟨w, hw, hwp, hwe⟩ :=
        processCrate_emits h1 h2 hu (toCheck_sub hp) hin hdeps hfix hfp
          (resolve_dep_mem_packages hr) hmem hfd
      refine ⟨w, ?_, hwp, hwe⟩
      rw [pfFinalize_writes]
      exact h3 w hw

theorem propagate_feature_flags_and_fix_witness :
    MapMem (computeFlags argsPF metaPF).propagate_missing "ia" "ib" ∧
    ∃ w ∈ (propagateRun argsPF metaPF).writes,
      w.path = pkgAstd.manifest_path ∧ ("std", "b/std") ∈ w.edits := by
  have h := propagate_feature_flags_and_fix argsPF metaPF (by decide)
    pkgAstd (by decide) depB (by decide) pkgBstd (by decide) (by decide)
  have hpmfix := h.2 [] rfl (by decide)
  exact ⟨hpmfix.1, hpmfix.2 rfl rfl rfl (by decide) (by decide)⟩

/-- **C9**: every write of a Propagate-Feature run targets a path inside the
allowed directory (the parent of the command-line manifest path); a manifest
path outside that directory is never written; and on a panic-free run every
flagged crate is still looked up and reported with its header line, written or
not. -/
theorem propagate_feature_writes_inside_allowed (args : PfArgs) (meta : Metadata) :
    (∀ w ∈ (propagateRun args meta).writes,
      (allowedDir args).isPrefixOf w.path = true) ∧
    (∀ p, (allowedDir args).isPrefixOf p = false →
      ∀ w ∈ (propagateRun args meta).writes, w.path ≠ p) ∧
    ((propagateRun args meta).panic = none →
      ∀ k ∈ faultyCrates (computeFlags args meta),
        ∃ krate, lookupPkg meta.packages k = .ok krate ∧
          crateHeader args krate ∈ (propagateRun args meta).out) := by
  have hall : ∀ w ∈ (propagateRun args meta).writes,
      (allowedDir args).isPrefixOf w.path = true := by
    intro w hw
    unfold propagateRun at hw
    by_cases he : (toCheck args meta).isEmpty
    · rw [if_pos he] at hw
      exact absurd hw (List.not_mem_nil w)
    · rw [if_neg he, pfFinalize_writes] at hw
      refine foldl_processCrate_writes_good args meta (computeFlags args meta) _ pfInit
        ?_ w hw
      intro w1 hw1
      exact absurd hw1 (List.not_mem_nil w1)
  refine ⟨hall, ?_, ?_⟩
  · intro p hp w hw heq
    have h2 := hall w hw
    rw [heq] at h2
    rw [h2] at hp
    exact Bool.noConfusion hp
  · intro hrun k hk
    unfold propagateRun at hrun ⊢
    by_cases he : (toCheck args meta).isEmpty
    · rw [if_pos he] at hrun
      exact Option.noConfusion hrun
    · rw [if_neg he] at hrun ⊢
      rw [pfFinalize_panic] at hrun
      obtain ⟨st1, h1, h2, h3, h4⟩ :=
        foldl_processCrate_reach args meta (computeFlags args meta) _ pfInit hrun k hk
      obtain ⟨krate, hlk, hhdr⟩ :=
        processCrate_header_found args meta (computeFlags args meta) st1 k h2
      exact ⟨krate, hlk, pfFinalize_out_mono _ (h4 _ hhdr)⟩

theorem propagate_feature_writes_inside_allowed_witness :
    ((allowedDir argsPF).isPrefixOf (["ws", "a", "Cargo.toml"] : List String) = true) ∧
    (∃ krate, lookupPkg metaPF.packages "ia" = .ok krate ∧
      crateHeader argsPF krate ∈ (propagateRun argsPF metaPF).out) := by
  constructor
  · exact (propagate_feature_writes_inside_allowed argsPF metaPF).1
      ⟨["ws", "a", "Cargo.toml"], [("std", "b/std")]⟩ (by decide)
  · exact (propagate_feature_writes_inside_allowed argsPF metaPF).2.2 (by decide)
      "ia" (by decide)
